import Mathlib

namespace Gojq

/-- Two's-complement wrap of an integer into the range of Go's 64-bit `int`. -/
def wrapInt (x : Int) : Int :=
  (x + 2 ^ 63) % 2 ^ 64 - 2 ^ 63

/-- Largest value of Go's 64-bit `int`. -/
def maxInt : Int := 2 ^ 63 - 1

/-- Smallest value of Go's 64-bit `int`. -/
def minInt : Int := -(2 ^ 63)

/-- Go `float64`: an IEEE 754 binary64 datum. A finite datum `fin neg m e`
denotes `(-1)^neg * m * 2^e`, so zero is any datum with `m = 0`; the
arithmetic below returns nonzero data with `m < 2^53`, `-1074 ≤ e ≤ 971` and
`2^52 ≤ m` unless `e = -1074`. -/
inductive F64 where
  | nan
  | inf (neg : Bool)
  | fin (neg : Bool) (m : Nat) (e : Int)
  deriving DecidableEq

namespace F64

/-- Number of binary digits of `n`, by halving at most `fuel` times. -/
def bitLenAux : Nat → Nat → Nat
  | 0, _ => 0
  | fuel + 1, n => if n = 0 then 0 else bitLenAux fuel (n / 2) + 1

/-- Number of binary digits of `n` (`0` for `0`). -/
def bitLen (n : Nat) : Nat := bitLenAux n n

/-- Signed zero. -/
def zero (neg : Bool) : F64 := .fin neg 0 0

/-- Exponent of the last kept bit when `m * 2^e` is cut to 53 significant
bits, not below that of the subnormal numbers. -/
def roundExp (m : Nat) (e : Int) : Int :=
  max (e + (bitLen m : Nat) - 53) (-1074)

/-- Multiple of `2^(roundExp m e)` nearest to `m * 2^e` (plus a nonzero
remainder below the last bit of `m` when `sticky`), ties to even. -/
def roundMant (m : Nat) (e : Int) (sticky : Bool) : Nat :=
  if roundExp m e ≤ e then m * 2 ^ (e - roundExp m e).toNat
  else
    let sh := (roundExp m e - e).toNat
    let q := m / 2 ^ sh
    let r := m % 2 ^ sh
    let half := 2 ^ (sh - 1)
    if r > half ∨ (r = half ∧ (sticky = true ∨ q % 2 = 1)) then q + 1 else q

/-- Round the exact magnitude `m * 2^e` (plus a nonzero remainder below the
last bit of `m` when `sticky`) to binary64, ties to even; beyond the largest
finite number the result is an infinity. -/
def round (neg : Bool) (m : Nat) (e : Int) (sticky : Bool) : F64 :=
  if m = 0 then zero neg
  else if roundMant m e sticky = 2 ^ 53 then
    (if roundExp m e + 1 > 971 then .inf neg else .fin neg (2 ^ 52) (roundExp m e + 1))
  else
    (if roundExp m e > 971 then .inf neg else .fin neg (roundMant m e sticky) (roundExp m e))

/-- Conversion `float64(n)` of a Go `int`. -/
def ofInt (n : Int) : F64 := round (decide (n < 0)) n.natAbs 0 false

/-- A finite datum as a signed integer multiple of `2^e`. -/
def scaled (neg : Bool) (m : Nat) (e0 e : Int) : Int :=
  (if neg then -1 else 1) * (m * 2 ^ (e0 - e).toNat : Nat)

/-- Go `a < b` on `float64`. -/
def lt : F64 → F64 → Bool
  | .nan, _ => false
  | _, .nan => false
  | .inf n1, .inf n2 => n1 && !n2
  | .inf n1, .fin _ _ _ => n1
  | .fin _ _ _, .inf n2 => !n2
  | .fin n1 m1 e1, .fin n2 m2 e2 =>
    decide (scaled n1 m1 e1 (min e1 e2) < scaled n2 m2 e2 (min e1 e2))

/-- Go `a == b` on `float64`. -/
def eq : F64 → F64 → Bool
  | .nan, _ => false
  | _, .nan => false
  | .inf n1, .inf n2 => n1 == n2
  | .inf _, .fin _ _ _ => false
  | .fin _ _ _, .inf _ => false
  | .fin n1 m1 e1, .fin n2 m2 e2 =>
    decide (scaled n1 m1 e1 (min e1 e2) = scaled n2 m2 e2 (min e1 e2))

/-- Go `a + b` on `float64`. -/
def add : F64 → F64 → F64
  | .nan, _ => .nan
  | _, .nan => .nan
  | .inf n1, .inf n2 => if n1 = n2 then .inf n1 else .nan
  | .inf n1, .fin _ _ _ => .inf n1
  | .fin _ _ _, .inf n2 => .inf n2
  | .fin n1 m1 e1, .fin n2 m2 e2 =>
    let s := scaled n1 m1 e1 (min e1 e2) + scaled n2 m2 e2 (min e1 e2)
    if s = 0 then zero (n1 && n2) else round (decide (s < 0)) s.natAbs (min e1 e2) false

/-- Go unary minus on `float64`. -/
def neg : F64 → F64
  | .nan => .nan
  | .inf n => .inf (!n)
  | .fin n m e => .fin (!n) m e

/-- Go `a - b` on `float64`. -/
def sub (a b : F64) : F64 := add a (neg b)

/-- Go `a * b` on `float64`. -/
def mul : F64 → F64 → F64
  | .nan, _ => .nan
  | _, .nan => .nan
  | .inf n1, .inf n2 => .inf (n1 != n2)
  | .inf n1, .fin n2 m2 _ => if m2 = 0 then .nan else .inf (n1 != n2)
  | .fin n1 m1 _, .inf n2 => if m1 = 0 then .nan else .inf (n1 != n2)
  | .fin n1 m1 e1, .fin n2 m2 e2 => round (n1 != n2) (m1 * m2) (e1 + e2) false

/-- Go `a / b` on `float64`. -/
def div : F64 → F64 → F64
  | .nan, _ => .nan
  | _, .nan => .nan
  | .inf _, .inf _ => .nan
  | .inf n1, .fin n2 _ _ => .inf (n1 != n2)
  | .fin n1 _ _, .inf n2 => zero (n1 != n2)
  | .fin n1 m1 e1, .fin n2 m2 e2 =>
    if m2 = 0 then (if m1 = 0 then .nan else .inf (n1 != n2))
    else
      let k : Nat := bitLen m2 + 56
      round (n1 != n2) (m1 * 2 ^ k / m2) (e1 - e2 - k) (decide (m1 * 2 ^ k % m2 ≠ 0))

/-- Conversion `int(f)` of a `float64`: truncation toward zero. The Go
specification leaves the result open when the value does not fit; the amd64
compiler yields the smallest `int`, which is what is modelled here. -/
def toInt : F64 → Int
  | .nan => minInt
  | .inf _ => minInt
  | .fin neg m e =>
    let t : Int := (if 0 ≤ e then m * 2 ^ e.toNat else m / 2 ^ (-e).toNat : Nat)
    let v : Int := if neg then -t else t
    if minInt ≤ v ∧ v ≤ maxInt then v else minInt

/-- Go `a <= b` on `float64`. -/
def le (a b : F64) : Bool := lt a b || eq a b

/-- The rational number a finite datum denotes (`0` for the others). -/
def toRat : F64 → ℚ
  | .nan => 0
  | .inf _ => 0
  | .fin neg m e => (if neg then -1 else 1) * (m : ℚ) * (2 : ℚ) ^ e

end F64

/-- Ways in which the Go runtime or library aborts a call. -/
inductive Panic where
  | divideByZero
  | negativeRepeatCount
  | repeatOverflow
  | indexOutOfRange
  | unsupportedOperator
  | invalidOperator
  deriving DecidableEq, Repr

/-- Where the header of a `[]interface{}` or of a `map[string]interface{}`
points: nowhere (the nil slice, the nil map), to a store that no other value
shares, or to the store at a known address, which other values may share. -/
inductive Ref where
  | nil
  | own
  | addr (a : Nat)
  deriving DecidableEq, Repr

/-- Go `IsNil` of a slice or map. -/
def Ref.isNil : Ref → Bool
  | .nil => true
  | _ => false

/-- Whether two headers point to one and the same place, the pointer test of
`reflect.DeepEqual`: both nil, or both at one address. -/
def Ref.same : Ref → Ref → Bool
  | .nil, .nil => true
  | .addr a, .addr b => decide (a = b)
  | _, _ => false

/-- Modelled from the spec: the constructor `err`, for `*binopTypeError`,
whose declaration is not among the sources; following the spec it carries the
verb and the two operands.

The type holds the dynamic values of a Go `interface{}`. The first six
constructors are the kinds that `binopTypeSwitch` tells apart (`nil`, `int`,
`float64`, `string`, `[]interface{}`, `map[string]interface{}`). A slice is
its header pointer and its elements; a map is its header pointer and its
entries, an association list read by first match. The last three are dynamic
types the switch does not know: `[]string` (what `strings.Split` returns, a
non-nil slice of its own), `bool`, and `*binopTypeError` (a non-nil pointer of
its own). -/
inductive Value where
  | null
  | int (n : Int)
  | float (f : F64)
  | string (s : String)
  | array (p : Ref) (xs : List Value)
  | map (p : Ref) (m : List (String × Value))
  | strs (xs : List String)
  | bool (b : Bool)
  | err (verb : String) (l r : Value)

/-- Go `m[k]` with the comma-ok form, on a `map[string]interface{}`. -/
def mapGet (m : List (String × Value)) (k : String) : Option Value :=
  match m with
  | [] => none
  | (k1, v1) :: rest => if k1 = k then some v1 else mapGet rest k

/-- Go `m[k] = v` on a `map[string]interface{}`. -/
def mapSet (m : List (String × Value)) (k : String) (v : Value) : List (String × Value) :=
  match m with
  | [] => [(k, v)]
  | (k1, v1) :: rest => if k1 = k then (k, v) :: rest else (k1, v1) :: mapSet rest k v

mutual
/-- Go `reflect.DeepEqual` on two values held in `interface{}`. The dynamic
types must be the same. Two slices, and two maps, must be both nil or both
non-nil and of the same length; then they are equal if their headers point to
one place, and else by their elements, or entries. -/
def deepEqual : Value → Value → Bool
  | .null, w => (match w with | .null => true | _ => false)
  | .int a, w => (match w with | .int b => decide (a = b) | _ => false)
  | .float a, w => (match w with | .float b => F64.eq a b | _ => false)
  | .string a, w => (match w with | .string b => decide (a = b) | _ => false)
  | .array p xs, w =>
    (match w with
     | .array q ys =>
       (p.isNil == q.isNil) && decide (xs.length = ys.length)
         && (Ref.same p q || deepEqualList xs ys)
     | _ => false)
  | .map p l, w =>
    (match w with
     | .map q r =>
       (p.isNil == q.isNil) && decide (l.length = r.length)
         && (Ref.same p q || deepEqualMap l r)
     | _ => false)
  | .strs xs, w => (match w with | .strs ys => decide (xs = ys) | _ => false)
  | .bool a, w => (match w with | .bool b => decide (a = b) | _ => false)
  | .err verb l r, w =>
    (match w with
     | .err verb2 l2 r2 => decide (verb = verb2) && deepEqual l l2 && deepEqual r r2
     | _ => false)
/-- Element-wise comparison of two slices. -/
def deepEqualList : List Value → List Value → Bool
  | [], ys => (match ys with | [] => true | _ => false)
  | x :: xs, ys => (match ys with | y :: ys1 => deepEqual x y && deepEqualList xs ys1 | [] => false)
/-- Every entry of the left map has a deep-equal entry under the same key. -/
def deepEqualMap : List (String × Value) → List (String × Value) → Bool
  | [], _ => true
  | (k, v) :: rest, r =>
    (match mapGet r k with
     | some w => deepEqual v w
     | none => false) && deepEqualMap rest r
end

/-- Go `len(s)` of a string: its length in bytes. -/
def strLen (s : String) : Int := s.utf8ByteSize

/-- The string `s` written `n` times in a row. -/
def repeatStr (s : String) : Nat → String
  | 0 => ""
  | n + 1 => s ++ repeatStr s n

/-- Go `strings.Repeat`. It panics on a negative count and when the length of
the result does not fit an `int`. -/
def stringsRepeat (s : String) (count : Int) : Except Panic String :=
  if count = 0 then .ok ""
  else if count < 0 then .error .negativeRepeatCount
  else if strLen s * count > maxInt then .error .repeatOverflow
  else .ok (repeatStr s count.toNat)

/-- Go `strings.Index` on character lists: position of the first occurrence
of `sep` in `s`. -/
def stringsIndex (sep : List Char) : List Char → Option Nat
  | [] => if sep = [] then some 0 else none
  | c :: cs =>
    if sep.isPrefixOf (c :: cs) then some 0
    else (stringsIndex sep cs).map (fun i => i + 1)

/-- The loop of Go `strings.genSplit` for a non-empty separator: cut at the
first occurrence and go on with what follows it. `fuel` bounds the number of
cuts. -/
def genSplit (sep : List Char) : Nat → List Char → List (List Char)
  | 0, s => [s]
  | fuel + 1, s =>
    match stringsIndex sep s with
    | none => [s]
    | some m => s.take m :: genSplit sep fuel (s.drop (m + sep.length))

/-- Go `strings.Split`. With the empty separator the string is cut into its
characters. -/
def stringsSplit (s sep : String) : List String :=
  if sep.data = [] then s.data.map (fun c => String.mk [c])
  else (genSplit sep.data s.data.length s.data).map String.mk

/-- Go `strings.Join` on character lists: the elements with `sep` between
consecutive ones. -/
def joinChars (sep : List Char) : List (List Char) → List Char
  | [] => []
  | [a] => a
  | a :: b :: rest => a ++ sep ++ joinChars sep (b :: rest)

/-- Go `strings.Join`. -/
def stringsJoin (elems : List String) (sep : String) : String :=
  String.mk (joinChars sep.data (elems.map String.data))

/-- The loop of Go `strings.Count` for a non-empty separator: count the first
occurrence and go on with what follows it. `fuel` bounds the number of
occurrences. -/
def countLoop (sep : List Char) : Nat → List Char → Nat
  | 0, _ => 0
  | fuel + 1, s =>
    match stringsIndex sep s with
    | none => 0
    | some m => countLoop sep fuel (s.drop (m + sep.length)) + 1

/-- Go `strings.Count`: the number of non-overlapping occurrences of `sep` in
`s`, and one more than the number of characters of `s` for the empty `sep`. -/
def stringsCount (s sep : String) : Nat :=
  if sep.data = [] then s.data.length + 1
  else countLoop sep.data s.data.length s.data

/-- Go `binopTypeSwitch`: dispatch on the dynamic types of both operands. -/
def binopTypeSwitch (l r : Value)
    (callbackInts : Int → Int → Except Panic Value)
    (callbackFloats : F64 → F64 → Except Panic Value)
    (callbackStrings : String → String → Except Panic Value)
    (callbackArrays : Ref → List Value → Ref → List Value → Except Panic Value)
    (callbackMaps : Ref → List (String × Value) → Ref → List (String × Value) →
      Except Panic Value)
    (fallback : Value → Value → Except Panic Value) : Except Panic Value :=
  match l with
  | .int li =>
    (match r with
     | .int ri => callbackInts li ri
     | .float rf => callbackFloats (F64.ofInt li) rf
     | _ => fallback l r)
  | .float lf =>
    (match r with
     | .int ri => callbackFloats lf (F64.ofInt ri)
     | .float rf => callbackFloats lf rf
     | _ => fallback l r)
  | .string ls =>
    (match r with
     | .string rs => callbackStrings ls rs
     | _ => fallback l r)
  | .array lp la =>
    (match r with
     | .array rp ra => callbackArrays lp la rp ra
     | _ => fallback l r)
  | .map lp lm =>
    (match r with
     | .map rp rm => callbackMaps lp lm rp rm
     | _ => fallback l r)
  | _ => fallback l r

/-- The two `range` loops shared by the map callbacks of `funcOpAdd` and
`funcOpMul`: copy `l` into a fresh map, then `r` over it. The map made is
non-nil and of its own. -/
def mergeMaps (l r : List (String × Value)) : List (String × Value) :=
  r.foldl (fun m kv => mapSet m kv.1 kv.2) (l.foldl (fun m kv => mapSet m kv.1 kv.2) [])

/-- Header of Go `append(l, r...)`, `p` being the header of `l`: with nothing
to append the slice `l` comes back as it is; else the result is taken to a
store of its own (the spare capacity of `l` is not represented). -/
def appendRef (p : Ref) (r : List Value) : Ref :=
  match r with
  | [] => p
  | _ :: _ => .own

/-- Go `funcOpAdd`. -/
def funcOpAdd (l r : Value) : Except Panic Value :=
  match l with
  | .null => .ok r
  | _ =>
    match r with
    | .null => .ok l
    | _ =>
      binopTypeSwitch l r
        (fun l r => .ok (.int (wrapInt (l + r))))
        (fun l r => .ok (.float (F64.add l r)))
        (fun l r => .ok (.string (l ++ r)))
        (fun p l _ r => .ok (.array (appendRef p r) (l ++ r)))
        (fun _ l _ r => .ok (.map .own (mergeMaps l r)))
        (fun l r => .ok (.err "add" l r))

/-- Inner loop of the array callback of `funcOpSub`: is `v` deep-equal to
some element of `r`? -/
def subFound (v : Value) : List Value → Bool
  | [] => false
  | w :: ws => if deepEqual v w then true else subFound v ws

/-- Outer loop of the array callback of `funcOpSub`, appending to `a`. -/
def subLoop (r : List Value) : List Value → List Value → List Value
  | [], a => a
  | v :: vs, a => if !subFound v r then subLoop r vs (a ++ [v]) else subLoop r vs a

/-- Go `funcOpSub`. -/
def funcOpSub (l r : Value) : Except Panic Value :=
  binopTypeSwitch l r
    (fun l r => .ok (.int (wrapInt (l - r))))
    (fun l r => .ok (.float (F64.sub l r)))
    (fun l r => .ok (.err "subtract" (.string l) (.string r)))
    (fun _ l _ r => .ok (.array .own (subLoop r l [])))
    (fun p l q r => .ok (.err "subtract" (.map p l) (.map q r)))
    (fun l r => .ok (.err "subtract" l r))

/-- The closure `multiplyString` of `funcOpMul`; `l` is the left operand of
the enclosing fallback, which the closure captures. -/
def multiplyString (l : Value) (s : String) (cnt : F64) : Except Panic Value :=
  if F64.lt cnt (F64.zero false) then .ok .null
  else if F64.lt cnt (F64.ofInt 1) then .ok l
  else (stringsRepeat s (F64.toInt cnt)).map Value.string

/-- Second half of the fallback of `funcOpMul`: the string on the right. -/
def mulFallbackRight (l r : Value) : Except Panic Value :=
  match r with
  | .string rs =>
    (match l with
     | .int li => multiplyString l rs (F64.ofInt li)
     | .float lf => multiplyString l rs lf
     | _ => .ok (.err "multiply" l r))
  | _ => .ok (.err "multiply" l r)

/-- The fallback of `funcOpMul`: first the string on the left, then on the
right, else the type error. -/
def mulFallback (l r : Value) : Except Panic Value :=
  match l with
  | .string ls =>
    (match r with
     | .int ri => multiplyString l ls (F64.ofInt ri)
     | .float rf => multiplyString l ls rf
     | _ => mulFallbackRight l r)
  | _ => mulFallbackRight l r

/-- Go `funcOpMul`. -/
def funcOpMul (l r : Value) : Except Panic Value :=
  binopTypeSwitch l r
    (fun l r => .ok (.int (wrapInt (l * r))))
    (fun l r => .ok (.float (F64.mul l r)))
    (fun l r => .ok (.err "multiply" (.string l) (.string r)))
    (fun p l q r => .ok (.err "multiply" (.array p l) (.array q r)))
    (fun _ l _ r => .ok (.map .own (mergeMaps l r)))
    mulFallback

/-- Go `funcOpDiv`. Integer division panics on a zero divisor and truncates
toward zero. -/
def funcOpDiv (l r : Value) : Except Panic Value :=
  binopTypeSwitch l r
    (fun l r => if r = 0 then .error .divideByZero else .ok (.int (wrapInt (Int.tdiv l r))))
    (fun l r => .ok (.float (F64.div l r)))
    (fun l r => .ok (.strs (stringsSplit l r)))
    (fun p l q r => .ok (.err "divide" (.array p l) (.array q r)))
    (fun p l q r => .ok (.err "divide" (.map p l) (.map q r)))
    (fun l r => .ok (.err "divide" l r))

/-- Go `type Operator int`. -/
abbrev Operator := Int

/-- Go `OpAdd`, the first of the `iota` constants. -/
def OpAdd : Operator := 0

/-- Go `OpSub`. -/
def OpSub : Operator := 1

/-- Go `OpMul`. -/
def OpMul : Operator := 2

/-- Go `OpDiv`. -/
def OpDiv : Operator := 3

/-- Go `Operator.Eval`. -/
def Operator.Eval (op : Operator) (l r : Value) : Except Panic Value :=
  if op = OpAdd then funcOpAdd l r
  else if op = OpSub then funcOpSub l r
  else if op = OpMul then funcOpMul l r
  else if op = OpDiv then funcOpDiv l r
  else .error .unsupportedOperator

/-- Go `operatorMap`. -/
def operatorMap : List (String × Operator) :=
  [("+", OpAdd), ("-", OpSub), ("*", OpMul), ("/", OpDiv)]

/-- Go `operatorMap[k]`: a missing key yields the zero value of `Operator`. -/
def operatorMapIndex (k : String) : Operator :=
  match operatorMap.lookup k with
  | some op => op
  | none => 0

/-- Go `Operator.Capture`: the operator stored into the receiver. Indexing
`s[0]` panics on an empty slice. -/
def Operator.Capture (s : List String) : Except Panic Operator :=
  match s with
  | [] => .error .indexOutOfRange
  | s0 :: _ => .ok (operatorMapIndex s0)

/-- Go `Operator.String`. -/
def Operator.String (op : Operator) : Except Panic String :=
  if op = OpAdd then .ok "+"
  else if op = OpSub then .ok "-"
  else if op = OpMul then .ok "*"
  else if op = OpDiv then .ok "/"
  else .error .invalidOperator

/-- Whether a value is a `*binopTypeError`. -/
def isBinopTypeError : Value → Bool
  | .err _ _ _ => true
  | _ => false

/-- Whether a call returned a `*binopTypeError`. -/
def resultIsError : Except Panic Value → Bool
  | .ok v => isBinopTypeError v
  | .error _ => false

/-- The kinds of the value domain; `foreign` stands for every dynamic type
outside the six. -/
inductive Kind where
  | null
  | int
  | float
  | string
  | sequence
  | mapping
  | foreign
  deriving DecidableEq, Repr

/-- Kind of a value: the dynamic type that `binopTypeSwitch` sees. -/
def Value.kind : Value → Kind
  | .null => .null
  | .int _ => .int
  | .float _ => .float
  | .string _ => .string
  | .array _ _ => .sequence
  | .map _ _ => .mapping
  | .strs _ => .foreign
  | .bool _ => .foreign
  | .err _ _ _ => .foreign

/-- `Int` or `Float`. -/
def isNumeric (v : Value) : Bool :=
  decide (v.kind = .int) || decide (v.kind = .float)

/-- One of the six kinds. -/
def isSixKind (v : Value) : Bool :=
  !decide (v.kind = .foreign)

/-- Rules (1) to (7) of the error table in the words of the specification:
the operator and operand kinds for which no type error is due. -/
def errorTableRule (op : Operator) (l r : Value) : Bool :=
  (isNumeric l && isNumeric r)
  || (decide (op = OpAdd) && (decide (l.kind = .null) || decide (r.kind = .null)))
  || (decide (op = OpAdd) &&
        ((decide (l.kind = .string) && decide (r.kind = .string))
         || (decide (l.kind = .sequence) && decide (r.kind = .sequence))
         || (decide (l.kind = .mapping) && decide (r.kind = .mapping))))
  || (decide (op = OpSub) && decide (l.kind = .sequence) && decide (r.kind = .sequence))
  || (decide (op = OpMul) && decide (l.kind = .mapping) && decide (r.kind = .mapping))
  || (decide (op = OpMul) &&
        ((decide (l.kind = .string) && isNumeric r)
         || (isNumeric l && decide (r.kind = .string))))
  || (decide (op = OpDiv) && decide (l.kind = .string) && decide (r.kind = .string))

/-- Verb of an operator in the words of the specification. -/
def verbOf (op : Operator) : String :=
  if op = OpAdd then "add"
  else if op = OpSub then "subtract"
  else if op = OpMul then "multiply"
  else "divide"

/-! ## The four branches of `Eval` -/

theorem Eval_add (l r : Value) : Operator.Eval OpAdd l r = funcOpAdd l r := rfl

theorem Eval_sub (l r : Value) : Operator.Eval OpSub l r = funcOpSub l r := rfl

theorem Eval_mul (l r : Value) : Operator.Eval OpMul l r = funcOpMul l r := rfl

theorem Eval_div (l r : Value) : Operator.Eval OpDiv l r = funcOpDiv l r := rfl

/-! ## Totality -/

/-- C1: `Eval` is not crash-free on the six kinds: integer division by the
integer zero aborts with the runtime panic for a zero divisor, whatever the
dividend, instead of returning a value or a type error. -/
theorem eval_div_int_zero_panics (a : Int) :
    Operator.Eval OpDiv (.int a) (.int 0) = .error Panic.divideByZero := by
  rfl

/-! ## Null absorption -/

/-- C2 (as stated, refuted): adding `Null` to a value that is itself a
`BinopTypeError` hands that error back, so the result of an addition with
`Null` can be a `BinopTypeError`. -/
theorem null_absorption_returns_error_operand :
    Operator.Eval OpAdd .null (.err "subtract" (.string "a") (.string "b"))
        = .ok (.err "subtract" (.string "a") (.string "b"))
      ∧ isBinopTypeError (.err "subtract" (.string "a") (.string "b")) = true := by
  exact ⟨rfl, rfl⟩

/-- C2 (amended): for every value `v`, of any kind, `Eval(Add, Null, v) = v`
and `Eval(Add, v, Null) = v`; the null check comes before every other rule of
`Add`, so the result is a `BinopTypeError` exactly when `v` itself is one. -/
theorem null_absorption (v : Value) :
    Operator.Eval OpAdd .null v = .ok v
      ∧ Operator.Eval OpAdd v .null = .ok v
      ∧ resultIsError (Operator.Eval OpAdd .null v) = isBinopTypeError v
      ∧ resultIsError (Operator.Eval OpAdd v .null) = isBinopTypeError v := by
  have h1 : Operator.Eval OpAdd .null v = .ok v := rfl
  have h2 : Operator.Eval OpAdd v .null = .ok v := by cases v <;> rfl
  refine ⟨h1, h2, ?_, ?_⟩
  · rw [h1]; rfl
  · rw [h2]; rfl

/-! ## Type errors -/

/-- What `multiplyString` returns is never a type error, unless the captured
left operand is one. -/
theorem multiplyString_not_error (l : Value) (s : String) (cnt : F64)
    (hl : isBinopTypeError l = false) :
    resultIsError (multiplyString l s cnt) = false := by
  unfold multiplyString
  split
  · rfl
  · split
    · exact hl
    · cases stringsRepeat s cnt.toInt <;> rfl

/-- On operands of the six kinds a call ends in a type error exactly when no
rule of the error table applies; a call that panics ends in none. -/
theorem resultIsError_eq_table (op : Operator) (l r : Value)
    (hop : op = OpAdd ∨ op = OpSub ∨ op = OpMul ∨ op = OpDiv)
    (hl : isSixKind l = true) (hr : isSixKind r = true) :
    resultIsError (Operator.Eval op l r) = !errorTableRule op l r := by
  rcases hop with rfl | rfl | rfl | rfl
  all_goals
    cases l <;> cases r <;>
    first
    | exact absurd hl Bool.false_ne_true
    | exact absurd hr Bool.false_ne_true
    | rfl
    | exact multiplyString_not_error _ _ _ rfl
    | (rw [Eval_div]
       simp only [funcOpDiv, binopTypeSwitch]
       split <;> rfl)

/-- C3: exact error table. For each of the four operators and operands `l`,
`r` of the six kinds, when `Eval` returns a value, that value is a
`BinopTypeError` if and only if none of the rules (1) to (7) applies. -/
theorem error_table_exact (op : Operator) (l r v : Value)
    (hop : op = OpAdd ∨ op = OpSub ∨ op = OpMul ∨ op = OpDiv)
    (hl : isSixKind l = true) (hr : isSixKind r = true)
    (h : Operator.Eval op l r = .ok v) :
    isBinopTypeError v = true ↔ errorTableRule op l r = false := by
  have key := resultIsError_eq_table op l r hop hl hr
  rw [h] at key
  simp only [resultIsError] at key
  rw [key]
  cases errorTableRule op l r <;> simp

/-- C3, at an instance: subtracting a `Mapping` from a `String` meets no rule
of the table and returns a type error. -/
theorem error_table_exact_witness :
    isBinopTypeError (.err "subtract" (.string "a") (.map .own [])) = true
      ↔ errorTableRule OpSub (.string "a") (.map .own []) = false :=
  error_table_exact OpSub (.string "a") (.map .own [])
    (.err "subtract" (.string "a") (.map .own [])) (Or.inr (Or.inl rfl)) rfl rfl rfl

/-- C4 (as stated, refuted): a `BinopTypeError` handed back by the null check
of `Add` keeps its own verb and operands, which are not those of the call. -/
theorem error_payload_null_absorbed :
    Operator.Eval OpAdd (.err "multiply" (.bool true) (.int 1)) .null
        = .ok (.err "multiply" (.bool true) (.int 1))
      ∧ "multiply" ≠ verbOf OpAdd
      ∧ Value.bool true ≠ Value.err "multiply" (.bool true) (.int 1)
      ∧ Value.int 1 ≠ Value.null := by
  refine ⟨rfl, by decide, ?_, ?_⟩ <;> intro h <;> cases h

/-- A call of `multiplyString` whose captured operand is no type error
returns no type error. -/
theorem multiplyString_ne_err (l : Value) (s : String) (cnt : F64) (verb : String)
    (a b : Value) (hl : isBinopTypeError l = false) :
    multiplyString l s cnt ≠ .ok (.err verb a b) := by
  intro h
  have key := multiplyString_not_error l s cnt hl
  rw [h] at key
  exact Bool.noConfusion (key : true = false)

/-- C4 (amended): whenever `Eval(op, l, r)` returns a `BinopTypeError`, and
the call is not an addition with a `Null` operand (which hands the other
operand back as it is), the verb is that of `op` and the left and right fields
are the operands `l` and `r` themselves, in that order. -/
theorem error_payload (op : Operator) (l r : Value) (verb : String) (a b : Value)
    (h : Operator.Eval op l r = .ok (.err verb a b))
    (hna : ¬ (op = OpAdd ∧ (l = .null ∨ r = .null))) :
    verb = verbOf op ∧ a = l ∧ b = r := by
  have hop : op = OpAdd ∨ op = OpSub ∨ op = OpMul ∨ op = OpDiv := by
    by_contra hc
    simp only [not_or] at hc
    obtain ⟨h0, h1, h2, h3⟩ := hc
    simp only [Operator.Eval, if_neg h0, if_neg h1, if_neg h2, if_neg h3] at h
    cases h
  rcases hop with rfl | rfl | rfl | rfl
  · rw [Eval_add] at h
    have hl0 : l ≠ .null := fun e => hna ⟨rfl, Or.inl e⟩
    have hr0 : r ≠ .null := fun e => hna ⟨rfl, Or.inr e⟩
    cases l <;> cases r <;>
    first
    | contradiction
    | (simp [funcOpAdd, binopTypeSwitch] at h; done)
    | (simp [funcOpAdd, binopTypeSwitch] at h
       obtain ⟨rfl, rfl, rfl⟩ := h
       exact ⟨rfl, rfl, rfl⟩)
  · rw [Eval_sub] at h
    cases l <;> cases r <;>
    first
    | (simp [funcOpSub, binopTypeSwitch] at h; done)
    | (simp [funcOpSub, binopTypeSwitch] at h
       obtain ⟨rfl, rfl, rfl⟩ := h
       exact ⟨rfl, rfl, rfl⟩)
  · rw [Eval_mul] at h
    cases l <;> cases r <;>
    first
    | exact absurd h (multiplyString_ne_err _ _ _ _ _ _ rfl)
    | (simp [funcOpMul, binopTypeSwitch, mulFallback, mulFallbackRight] at h; done)
    | (simp [funcOpMul, binopTypeSwitch, mulFallback, mulFallbackRight] at h
       obtain ⟨rfl, rfl, rfl⟩ := h
       exact ⟨rfl, rfl, rfl⟩)
  · rw [Eval_div] at h
    cases l <;> cases r <;>
    first
    | (simp only [funcOpDiv, binopTypeSwitch] at h
       split at h <;> cases h)
    | (simp [funcOpDiv, binopTypeSwitch] at h; done)
    | (simp [funcOpDiv, binopTypeSwitch] at h
       obtain ⟨rfl, rfl, rfl⟩ := h
       exact ⟨rfl, rfl, rfl⟩)

/-- C4 (amended), at the instance of the specification: subtracting the
string `"b"` from the string `"a"`. -/
theorem error_payload_witness :
    "subtract" = verbOf OpSub ∧ Value.string "a" = Value.string "a"
      ∧ Value.string "b" = Value.string "b" :=
  error_payload OpSub (.string "a") (.string "b") "subtract" (.string "a") (.string "b")
    rfl (fun hc => absurd hc.1 (by decide))

/-! ## String repetition -/

/-- C5: with the count on the left the captured left operand is the count,
not the string, so a count in `[0, 1)` comes back itself: `Int 0` times any
string is `Int 0`, and `Float 0.4` times `"x"` is `Float 0.4`; with the count
on the right the string comes back, as claimed. -/
theorem mul_small_count_on_left_returns_count (s : String) :
    Operator.Eval OpMul (.int 0) (.string s) = .ok (.int 0)
      ∧ Operator.Eval OpMul (.float (.fin false 7205759403792794 (-54))) (.string "x")
          = .ok (.float (.fin false 7205759403792794 (-54)))
      ∧ Operator.Eval OpMul (.int 0) (.string "x") ≠ .ok (.string "x")
      ∧ Operator.Eval OpMul (.string s) (.int 0) = .ok (.string s) := by
  refine ⟨rfl, rfl, ?_, rfl⟩
  intro h
  cases h

/-! ## Facts about the `float64` conversions and comparisons -/

namespace F64

theorem bitLenAux_lt (fuel : Nat) : ∀ n, n ≤ fuel → n < 2 ^ bitLenAux fuel n := by
  induction fuel with
  | zero => intro n h; simp [bitLenAux]; omega
  | succ f ih =>
    intro n h
    unfold bitLenAux
    split
    · omega
    · have := ih (n / 2) (by omega)
      rw [pow_succ]
      omega

theorem bitLenAux_pos (fuel n : Nat) (hn : n ≠ 0) (h : n ≤ fuel) : 1 ≤ bitLenAux fuel n := by
  cases fuel with
  | zero => omega
  | succ f => unfold bitLenAux; rw [if_neg hn]; omega

theorem bitLenAux_le (fuel : Nat) : ∀ n, n ≠ 0 → n ≤ fuel → 2 ^ (bitLenAux fuel n - 1) ≤ n := by
  induction fuel with
  | zero => intro n hn h; omega
  | succ f ih =>
    intro n hn h
    unfold bitLenAux
    rw [if_neg hn, Nat.add_sub_cancel]
    by_cases h2 : n / 2 = 0
    · rw [h2]
      have : bitLenAux f 0 = 0 := by cases f <;> simp [bitLenAux]
      rw [this]; simp; omega
    · have h3 := ih (n / 2) h2 (by omega)
      have h4 := bitLenAux_pos f (n / 2) h2 (by omega)
      have : bitLenAux f (n / 2) = (bitLenAux f (n / 2) - 1) + 1 := by omega
      rw [this, pow_succ]
      omega

theorem lt_two_pow_bitLen (n : Nat) : n < 2 ^ bitLen n := bitLenAux_lt n n (le_refl n)

theorem bitLen_pos (n : Nat) (hn : n ≠ 0) : 1 ≤ bitLen n := bitLenAux_pos n n hn (le_refl n)

theorem two_pow_bitLen_le (n : Nat) (hn : n ≠ 0) : 2 ^ (bitLen n - 1) ≤ n :=
  bitLenAux_le n n hn (le_refl n)

/-- A nonzero magnitude whose leading bit lies in the normal range rounds to
a mantissa with its leading bit in place. -/
theorem roundMant_ge (m : Nat) (e : Int) (sticky : Bool) (hm : m ≠ 0)
    (he : -1074 ≤ e + (bitLen m : Nat) - 53) : 2 ^ 52 ≤ roundMant m e sticky := by
  have hexp : roundExp m e = e + (bitLen m : Nat) - 53 := max_eq_left he
  have hb := bitLen_pos m hm
  have hlow := two_pow_bitLen_le m hm
  unfold roundMant
  rw [hexp]
  split
  · rename_i hle
    have hk : (e - (e + (bitLen m : Nat) - 53)).toNat = 53 - bitLen m := by omega
    rw [hk]
    have h53 : bitLen m ≤ 53 := by omega
    calc 2 ^ 52 = 2 ^ (bitLen m - 1) * 2 ^ (53 - bitLen m) := by
          rw [← pow_add]; congr 1; omega
      _ ≤ m * 2 ^ (53 - bitLen m) := Nat.mul_le_mul_right _ hlow
  · rename_i hle
    have hk : (e + (bitLen m : Nat) - 53 - e).toNat = bitLen m - 53 := by omega
    simp only [hk]
    have hq : 2 ^ 52 ≤ m / 2 ^ (bitLen m - 53) := by
      rw [Nat.le_div_iff_mul_le (by positivity)]
      calc 2 ^ 52 * 2 ^ (bitLen m - 53) = 2 ^ (bitLen m - 1) := by
            rw [← pow_add]; congr 1; omega
        _ ≤ m := hlow
    split <;> omega

/-- Shape of `float64(n)` for a nonzero `n`: the sign of `n`, and either an
infinity or a mantissa of at least `2^52` with an exponent of at least `-52`. -/
theorem ofInt_shape (n : Int) (hn : n ≠ 0) :
    ofInt n = .inf (decide (n < 0)) ∨
      ∃ m e, ofInt n = .fin (decide (n < 0)) m e ∧ 2 ^ 52 ≤ m ∧ -52 ≤ e := by
  have hm : n.natAbs ≠ 0 := by omega
  have hb := bitLen_pos n.natAbs hm
  have he : (-1074 : Int) ≤ 0 + (bitLen n.natAbs : Nat) - 53 := by omega
  have hexp : roundExp n.natAbs 0 = 0 + (bitLen n.natAbs : Nat) - 53 := max_eq_left he
  have hge := roundMant_ge n.natAbs 0 false hm he
  unfold ofInt round
  rw [if_neg hm]
  split
  · split
    · exact Or.inl rfl
    · exact Or.inr ⟨_, _, rfl, le_refl _, by omega⟩
  · split
    · exact Or.inl rfl
    · exact Or.inr ⟨_, _, rfl, hge, by omega⟩

theorem scaled_false_nonneg (m : Nat) (e0 e : Int) : 0 ≤ scaled false m e0 e := by
  unfold scaled
  simp

theorem ofInt_one : ofInt 1 = .fin false (2 ^ 52) (-52) := by decide

/-- A nonnegative finite number is not below zero. -/
theorem lt_zero_of_pos (m : Nat) (e : Int) : lt (.fin false m e) (zero false) = false := by
  unfold lt zero
  simp only [decide_eq_false_iff_not, not_lt]
  have : scaled false 0 0 (min e 0) = 0 := by simp [scaled]
  rw [this]
  exact scaled_false_nonneg _ _ _

/-- A negative finite number with a nonzero mantissa is below zero. -/
theorem lt_zero_of_neg (m : Nat) (e : Int) (hm : m ≠ 0) :
    lt (.fin true m e) (zero false) = true := by
  unfold lt zero
  simp only [decide_eq_true_eq]
  have h0 : scaled false 0 0 (min e 0) = 0 := by simp [scaled]
  rw [h0]
  unfold scaled
  have : 0 < m * 2 ^ (e - min e 0).toNat := by positivity
  simp only [if_true]
  omega

/-- A normalised positive number with exponent at least `-52` is not below one. -/
theorem lt_one_of_normal (m : Nat) (e : Int) (hm : 2 ^ 52 ≤ m) (he : -52 ≤ e) :
    lt (.fin false m e) (ofInt 1) = false := by
  rw [ofInt_one]
  unfold lt
  simp only [decide_eq_false_iff_not, not_lt]
  have hmin : min e (-52) = -52 := min_eq_right he
  rw [hmin]
  unfold scaled
  simp only [Bool.false_eq_true, if_false, one_mul]
  have h1 : ((-52 : Int) - -52).toNat = 0 := by decide
  rw [h1]
  have : 1 ≤ 2 ^ (e - -52).toNat := Nat.one_le_two_pow
  have : 2 ^ 52 * 1 ≤ m * 2 ^ (e - -52).toNat := Nat.mul_le_mul hm this
  simp only [pow_zero]
  exact_mod_cast this

/-- For a negative `n`, `float64(n) < 0`. -/
theorem ofInt_neg_lt_zero (n : Int) (hn : n < 0) : lt (ofInt n) (zero false) = true := by
  rcases ofInt_shape n (by omega) with h | ⟨m, e, h, hm, _⟩
  · rw [h]; simp [hn]; rfl
  · rw [h]
    simp only [hn, decide_True]
    exact lt_zero_of_neg m e (by omega)

/-- For `n ≥ 1`, `float64(n)` is neither below zero nor below one. -/
theorem ofInt_pos_not_lt (n : Int) (hn : 1 ≤ n) :
    lt (ofInt n) (zero false) = false ∧ lt (ofInt n) (ofInt 1) = false := by
  have hneg : decide (n < 0) = false := by simp; omega
  rcases ofInt_shape n (by omega) with h | ⟨m, e, h, hm, he⟩
  · rw [h, hneg, ofInt_one]; exact ⟨rfl, rfl⟩
  · rw [h, hneg]
    exact ⟨lt_zero_of_pos m e, lt_one_of_normal m e hm he⟩


/-- Integers of magnitude below `2^53` are converted exactly and normalised. -/
theorem ofInt_small (n : Int) (h1 : 1 ≤ n) (h2 : n < 2 ^ 53) :
    ofInt n = .fin false (n.natAbs * 2 ^ (53 - bitLen n.natAbs)) ((bitLen n.natAbs : Nat) - 53) := by
  have hm : n.natAbs ≠ 0 := by omega
  have hb := bitLen_pos n.natAbs hm
  have hup := lt_two_pow_bitLen n.natAbs
  have hlow := two_pow_bitLen_le n.natAbs hm
  have hlt : n.natAbs < 2 ^ 53 := by omega
  have hb53 : bitLen n.natAbs ≤ 53 := by
    by_contra hc
    have : 2 ^ 53 ≤ 2 ^ (bitLen n.natAbs - 1) := Nat.pow_le_pow_right (by decide) (by omega)
    omega
  have he : (-1074 : Int) ≤ 0 + (bitLen n.natAbs : Nat) - 53 := by omega
  have hexp : roundExp n.natAbs 0 = (bitLen n.natAbs : Nat) - 53 := by
    unfold roundExp; rw [max_eq_left he]; omega
  have hmant : roundMant n.natAbs 0 false = n.natAbs * 2 ^ (53 - bitLen n.natAbs) := by
    unfold roundMant
    rw [hexp, if_pos (by omega)]
    congr 2
    omega
  have hne : n.natAbs * 2 ^ (53 - bitLen n.natAbs) ≠ 2 ^ 53 := by
    have : n.natAbs * 2 ^ (53 - bitLen n.natAbs) < 2 ^ bitLen n.natAbs * 2 ^ (53 - bitLen n.natAbs) :=
      Nat.mul_lt_mul_of_pos_right hup (by positivity)
    rw [← pow_add] at this
    have h53 : bitLen n.natAbs + (53 - bitLen n.natAbs) = 53 := by omega
    rw [h53] at this
    omega
  have hneg : decide (n < 0) = false := by simp; omega
  unfold ofInt round
  rw [if_neg hm, hmant, if_neg hne, hexp, if_neg (by omega), hneg]

/-- Up to `2^53` the conversion to `float64` and back gives the integer again. -/
theorem toInt_ofInt (n : Int) (h1 : 1 ≤ n) (h2 : n ≤ 2 ^ 53) : toInt (ofInt n) = n := by
  rcases lt_or_eq_of_le h2 with h | h
  · rw [ofInt_small n h1 h]
    have hm : n.natAbs ≠ 0 := by omega
    have hb := bitLen_pos n.natAbs hm
    have hlt : n.natAbs < 2 ^ 53 := by omega
    have hb53 : bitLen n.natAbs ≤ 53 := by
      by_contra hc
      have h3 : 2 ^ 53 ≤ 2 ^ (bitLen n.natAbs - 1) := Nat.pow_le_pow_right (by decide) (by omega)
      have h4 := two_pow_bitLen_le n.natAbs hm
      omega
    have ht : (if (0 : Int) ≤ (bitLen n.natAbs : Nat) - 53
                then n.natAbs * 2 ^ (53 - bitLen n.natAbs) * 2 ^ (((bitLen n.natAbs : Nat) : Int) - 53).toNat
                else n.natAbs * 2 ^ (53 - bitLen n.natAbs) / 2 ^ (-(((bitLen n.natAbs : Nat) : Int) - 53)).toNat)
              = n.natAbs := by
      split
      · have e1 : 53 - bitLen n.natAbs = 0 := by omega
        have e2 : (((bitLen n.natAbs : Nat) : Int) - 53).toNat = 0 := by omega
        rw [e1, e2]; simp
      · have e2 : (-(((bitLen n.natAbs : Nat) : Int) - 53)).toNat = 53 - bitLen n.natAbs := by omega
        rw [e2]
        exact Nat.mul_div_cancel _ (by positivity)
    unfold toInt
    simp only [ht, Bool.false_eq_true, if_false]
    have hcast : ((n.natAbs : Nat) : Int) = n := by omega
    rw [hcast, if_pos]
    unfold minInt maxInt
    constructor <;> omega
  · rw [h]; decide

end F64

theorem utf8ByteSize_append (s t : String) :
    (s ++ t).utf8ByteSize = s.utf8ByteSize + t.utf8ByteSize := by
  show String.utf8ByteSize ⟨s.data ++ t.data⟩ = _
  simp [String.utf8ByteSize_mk, String.utf8Len_append]
  rfl

/-- Byte length of a repeated string. -/
theorem strLen_repeatStr (s : String) (n : Nat) : strLen (repeatStr s n) = n * strLen s := by
  induction n with
  | zero => simp [repeatStr, strLen]; rfl
  | succ k ih =>
    unfold strLen at ih ⊢
    simp only [repeatStr, utf8ByteSize_append]
    push_cast
    rw [ih]
    ring

namespace F64

/-- A finite datum scaled to a common exponent, as a rational number. -/
theorem scaled_cast (neg : Bool) (m : Nat) (e μ : Int) (h : μ ≤ e) :
    ((scaled neg m e μ : Int) : ℚ) = toRat (.fin neg m e) * (2 : ℚ) ^ (-μ) := by
  have hk : (((e - μ).toNat : Nat) : Int) = e - μ := Int.toNat_of_nonneg (by omega)
  have hpow : ((2 : ℚ) ^ (e - μ).toNat) = (2 : ℚ) ^ e * (2 : ℚ) ^ (-μ) := by
    rw [← zpow_natCast, hk, sub_eq_add_neg, zpow_add₀ (by norm_num)]
  unfold scaled toRat
  cases neg <;> simp only [Bool.false_eq_true, if_false, if_true] <;> push_cast <;> rw [hpow] <;> ring

/-- On finite data `<` is the order of the denoted rationals. -/
theorem lt_fin_iff (n1 : Bool) (m1 : Nat) (e1 : Int) (n2 : Bool) (m2 : Nat) (e2 : Int) :
    lt (.fin n1 m1 e1) (.fin n2 m2 e2) = true ↔ toRat (.fin n1 m1 e1) < toRat (.fin n2 m2 e2) := by
  have hpos : (0 : ℚ) < (2 : ℚ) ^ (-(min e1 e2)) := by positivity
  unfold lt
  rw [decide_eq_true_iff, ← @Int.cast_lt ℚ, scaled_cast _ _ _ _ (min_le_left e1 e2),
    scaled_cast _ _ _ _ (min_le_right e1 e2)]
  exact mul_lt_mul_right hpos

/-- On finite data `==` is equality of the denoted rationals. -/
theorem eq_fin_iff (n1 : Bool) (m1 : Nat) (e1 : Int) (n2 : Bool) (m2 : Nat) (e2 : Int) :
    eq (.fin n1 m1 e1) (.fin n2 m2 e2) = true ↔ toRat (.fin n1 m1 e1) = toRat (.fin n2 m2 e2) := by
  have hpos : (0 : ℚ) < (2 : ℚ) ^ (-(min e1 e2)) := by positivity
  unfold eq
  rw [decide_eq_true_iff, ← @Int.cast_inj ℚ, scaled_cast _ _ _ _ (min_le_left e1 e2),
    scaled_cast _ _ _ _ (min_le_right e1 e2)]
  exact mul_left_inj' (ne_of_gt hpos)

/-- On finite data `<=` is the order of the denoted rationals. -/
theorem le_fin_iff (n1 : Bool) (m1 : Nat) (e1 : Int) (n2 : Bool) (m2 : Nat) (e2 : Int) :
    le (.fin n1 m1 e1) (.fin n2 m2 e2) = true ↔ toRat (.fin n1 m1 e1) ≤ toRat (.fin n2 m2 e2) := by
  unfold le
  rw [Bool.or_eq_true, lt_fin_iff, eq_fin_iff, le_iff_lt_or_eq]

theorem toRat_ofInt_one : toRat (ofInt 1) = 1 := by
  rw [ofInt_one]
  unfold toRat
  simp only [Bool.false_eq_true, if_false, one_mul]
  rw [zpow_neg]
  norm_num

theorem toRat_two_pow_63 : toRat (.fin false 1 63) = 2 ^ 63 := by
  unfold toRat
  simp only [Bool.false_eq_true, if_false, one_mul, Nat.cast_one]
  norm_num

/-- The truncation in `toInt` is the floor of the denoted rational, for a
nonnegative datum. -/
theorem trunc_eq_floor (m : Nat) (e : Int) :
    (((if 0 ≤ e then m * 2 ^ e.toNat else m / 2 ^ (-e).toNat : Nat) : Nat) : Int)
      = ⌊toRat (.fin false m e)⌋ := by
  unfold toRat
  simp only [Bool.false_eq_true, if_false, one_mul]
  split
  · rename_i h
    have hk : ((e.toNat : Nat) : Int) = e := Int.toNat_of_nonneg h
    have : (m : ℚ) * (2 : ℚ) ^ e = ((m * 2 ^ e.toNat : Nat) : ℚ) := by
      push_cast
      rw [← zpow_natCast, hk]
    rw [this, Int.floor_natCast]
  · rename_i h
    have hk : (((-e).toNat : Nat) : Int) = -e := Int.toNat_of_nonneg (by omega)
    have : (m : ℚ) * (2 : ℚ) ^ e = (m : ℚ) / ((2 ^ (-e).toNat : Nat) : ℚ) := by
      push_cast
      rw [← zpow_natCast, hk, zpow_neg, div_inv_eq_mul]
    rw [this, Rat.floor_natCast_div_natCast]
    rfl

/-- A `float64` count `c` with `1 <= c` and `c < 2^63`: it is neither below
zero nor below one, and `int(c)` is the floor of `c`, at least one. -/
theorem count_of_ge_one (c : F64) (h1 : le (ofInt 1) c = true)
    (h2 : lt c (.fin false 1 63) = true) :
    lt c (zero false) = false ∧ lt c (ofInt 1) = false
      ∧ toInt c = ⌊toRat c⌋ ∧ 1 ≤ toInt c := by
  cases c with
  | nan => rw [ofInt_one] at h1; exact absurd h1 (by decide)
  | inf neg =>
    cases neg
    · exact absurd h2 (by decide)
    · exact absurd h1 (by decide)
  | fin neg m e =>
    rw [ofInt_one, le_fin_iff, ← ofInt_one, toRat_ofInt_one] at h1
    rw [lt_fin_iff, toRat_two_pow_63] at h2
    have hneg : neg = false := by
      cases neg
      · rfl
      · exfalso
        unfold toRat at h1
        simp only [if_true] at h1
        have : (0 : ℚ) ≤ (m : ℚ) * (2 : ℚ) ^ e := by positivity
        linarith
    subst hneg
    have hfl : (1 : Int) ≤ ⌊toRat (.fin false m e)⌋ := Int.le_floor.mpr (by exact_mod_cast h1)
    have hfu : ⌊toRat (.fin false m e)⌋ < 2 ^ 63 := Int.floor_lt.mpr (by exact_mod_cast h2)
    have hto : toInt (.fin false m e) = ⌊toRat (.fin false m e)⌋ := by
      unfold toInt
      simp only [Bool.false_eq_true, if_false]
      rw [trunc_eq_floor, if_pos]
      unfold minInt maxInt
      constructor <;> omega
    refine ⟨lt_zero_of_pos m e, ?_, hto, by rw [hto]; exact hfl⟩
    cases hlt : lt (.fin false m e) (ofInt 1) with
    | false => rfl
    | true =>
      rw [ofInt_one, lt_fin_iff, ← ofInt_one, toRat_ofInt_one] at hlt
      linarith

end F64

theorem funcOpMul_string_int (s : String) (n : Int) :
    funcOpMul (.string s) (.int n) = multiplyString (.string s) s (F64.ofInt n) := rfl

theorem funcOpMul_int_string (s : String) (n : Int) :
    funcOpMul (.int n) (.string s) = multiplyString (.int n) s (F64.ofInt n) := rfl

theorem funcOpMul_string_float (s : String) (c : F64) :
    funcOpMul (.string s) (.float c) = multiplyString (.string s) s c := rfl

theorem funcOpMul_float_string (s : String) (c : F64) :
    funcOpMul (.float c) (.string s) = multiplyString (.float c) s c := rfl

/-- With a count that is neither below zero nor below one, whose integer part
is at least one and does not make the result overflow, `multiplyString`
repeats the string that many times. -/
theorem multiplyString_repeat (l : Value) (s : String) (cnt : F64)
    (h0 : F64.lt cnt (F64.zero false) = false) (h1 : F64.lt cnt (F64.ofInt 1) = false)
    (hc : 1 ≤ F64.toInt cnt) (hov : strLen s * F64.toInt cnt ≤ maxInt) :
    multiplyString l s cnt = .ok (.string (repeatStr s (F64.toInt cnt).toNat)) := by
  unfold multiplyString stringsRepeat
  rw [h0, h1]
  simp only [Bool.false_eq_true, if_false]
  rw [if_neg (by omega), if_neg (by omega), if_neg (by omega)]
  rfl

/-- With a count below zero `multiplyString` returns `nil`. -/
theorem multiplyString_negative (l : Value) (s : String) (cnt : F64)
    (h0 : F64.lt cnt (F64.zero false) = true) :
    multiplyString l s cnt = .ok .null := by
  unfold multiplyString
  rw [h0]
  rfl

/-- C6 (as stated, refuted): for the string `"ab"` and the count `2^62 ≥ 1`
the call does not return the repeated string: `strings.Repeat` panics because
the length of the result does not fit an `int`. -/
theorem mul_string_repeat_overflow :
    (1 : Int) ≤ 2 ^ 62
      ∧ Operator.Eval OpMul (.string "ab") (.int (2 ^ 62)) = .error Panic.repeatOverflow
      ∧ Operator.Eval OpMul (.int (2 ^ 62)) (.string "ab") = .error Panic.repeatOverflow := by
  exact ⟨by decide, rfl, rfl⟩

/-- C6 (amended): for every string `s` and every `Int n ≥ 1` that the
conversion to `float64` and back leaves unchanged (every `n ≤ 2^53` is such)
and with `n * len s` within the range of `int`, `Eval(Mul, String s, Int n)`
and `Eval(Mul, Int n, String s)` both are the `String` made of `s` repeated
`n` times, of length `n * len s`; for a `Float` count `c` with `1 ≤ c < 2^63`
and `floor(c) * len s` within the range of `int`, both are `s` repeated
`floor(c)` times; and `Eval(Mul, String "x", Int 3) = String "xxx"`. -/
theorem mul_string_repeat (s : String) :
    (∀ n : Int, 1 ≤ n → F64.toInt (F64.ofInt n) = n → strLen s * n ≤ maxInt →
        Operator.Eval OpMul (.string s) (.int n) = .ok (.string (repeatStr s n.toNat))
        ∧ Operator.Eval OpMul (.int n) (.string s) = .ok (.string (repeatStr s n.toNat))
        ∧ strLen (repeatStr s n.toNat) = n * strLen s)
      ∧ (∀ n : Int, 1 ≤ n → n ≤ 2 ^ 53 → F64.toInt (F64.ofInt n) = n)
      ∧ (∀ c : F64, F64.le (F64.ofInt 1) c = true → F64.lt c (.fin false 1 63) = true →
          strLen s * ⌊F64.toRat c⌋ ≤ maxInt →
          Operator.Eval OpMul (.string s) (.float c) = .ok (.string (repeatStr s ⌊F64.toRat c⌋.toNat))
          ∧ Operator.Eval OpMul (.float c) (.string s) = .ok (.string (repeatStr s ⌊F64.toRat c⌋.toNat)))
      ∧ Operator.Eval OpMul (.string "x") (.int 3) = .ok (.string "xxx") := by
  refine ⟨?_, F64.toInt_ofInt, ?_, rfl⟩
  · intro n hn hex hov
    obtain ⟨h0, h1⟩ := F64.ofInt_pos_not_lt n hn
    have key : ∀ l, multiplyString l s (F64.ofInt n) = .ok (.string (repeatStr s n.toNat)) := by
      intro l
      have := multiplyString_repeat l s (F64.ofInt n) h0 h1 (by rw [hex]; exact hn)
        (by rw [hex]; exact hov)
      rw [hex] at this
      exact this
    refine ⟨?_, ?_, ?_⟩
    · rw [Eval_mul, funcOpMul_string_int]; exact key _
    · rw [Eval_mul, funcOpMul_int_string]; exact key _
    · rw [strLen_repeatStr]
      have : ((n.toNat : Nat) : Int) = n := Int.toNat_of_nonneg (by omega)
      rw [this]
  · intro c hc1 hc2 hov
    obtain ⟨h0, h1, hfl, hpos⟩ := F64.count_of_ge_one c hc1 hc2
    have key : ∀ l, multiplyString l s c = .ok (.string (repeatStr s ⌊F64.toRat c⌋.toNat)) := by
      intro l
      have := multiplyString_repeat l s c h0 h1 hpos (by rw [hfl]; exact hov)
      rw [hfl] at this
      exact this
    exact ⟨by rw [Eval_mul, funcOpMul_string_float]; exact key _,
      by rw [Eval_mul, funcOpMul_float_string]; exact key _⟩

/-- C6 (amended), at the instance of the specification: `"x"` times `3`. -/
theorem mul_string_repeat_witness :
    Operator.Eval OpMul (.string "x") (.int 3) = .ok (.string (repeatStr "x" (3 : Int).toNat))
      ∧ Operator.Eval OpMul (.int 3) (.string "x") = .ok (.string (repeatStr "x" (3 : Int).toNat))
      ∧ strLen (repeatStr "x" (3 : Int).toNat) = 3 * strLen "x" :=
  (mul_string_repeat "x").1 3 (by decide) (by decide) (by decide)

/-- C7: string repetition with a negative count. For every string `s` and
every `Int n < 0`, and every `Float c < 0`, `Eval(Mul, String s, count)` and
`Eval(Mul, count, String s)` are `Null`; and
`Eval(Mul, String "x", Int -1) = Null`. -/
theorem mul_string_negative (s : String) :
    (∀ n : Int, n < 0 →
        Operator.Eval OpMul (.string s) (.int n) = .ok .null
        ∧ Operator.Eval OpMul (.int n) (.string s) = .ok .null)
      ∧ (∀ c : F64, F64.lt c (F64.zero false) = true →
        Operator.Eval OpMul (.string s) (.float c) = .ok .null
        ∧ Operator.Eval OpMul (.float c) (.string s) = .ok .null)
      ∧ Operator.Eval OpMul (.string "x") (.int (-1)) = .ok .null := by
  refine ⟨?_, ?_, rfl⟩
  · intro n hn
    have h0 := F64.ofInt_neg_lt_zero n hn
    exact ⟨by rw [Eval_mul, funcOpMul_string_int]; exact multiplyString_negative _ _ _ h0,
      by rw [Eval_mul, funcOpMul_int_string]; exact multiplyString_negative _ _ _ h0⟩
  · intro c h0
    exact ⟨by rw [Eval_mul, funcOpMul_string_float]; exact multiplyString_negative _ _ _ h0,
      by rw [Eval_mul, funcOpMul_float_string]; exact multiplyString_negative _ _ _ h0⟩

/-- C7, at instances: the count `-7` as an `Int`, and `-1/2` as a `Float`. -/
theorem mul_string_negative_witness :
    (Operator.Eval OpMul (.string "ab") (.int (-7)) = .ok .null
        ∧ Operator.Eval OpMul (.int (-7)) (.string "ab") = .ok .null)
      ∧ (Operator.Eval OpMul (.string "ab") (.float (.fin true (2 ^ 52) (-53))) = .ok .null
        ∧ Operator.Eval OpMul (.float (.fin true (2 ^ 52) (-53))) (.string "ab") = .ok .null) :=
  ⟨(mul_string_negative "ab").1 (-7) (by decide),
    (mul_string_negative "ab").2.1 (.fin true (2 ^ 52) (-53)) (by decide)⟩


/-! ## Sequence exclusion -/

theorem subFound_eq_any (v : Value) (r : List Value) :
    subFound v r = r.any (fun w => deepEqual v w) := by
  induction r with
  | nil => rfl
  | cons w ws ih =>
    simp only [subFound, List.any_cons, ih]
    cases deepEqual v w <;> simp

theorem subLoop_eq_filter (r : List Value) (l : List Value) :
    ∀ a, subLoop r l a = a ++ l.filter (fun v => !r.any (fun w => deepEqual v w)) := by
  induction l with
  | nil => intro a; simp [subLoop]
  | cons v vs ih =>
    intro a
    simp only [subLoop, List.filter_cons, subFound_eq_any]
    cases h : r.any (fun w => deepEqual v w) <;> simp [ih]

theorem deepEqual_kind (v w : Value) (h : deepEqual v w = true) : v.kind = w.kind := by
  cases v <;> cases w <;> first | rfl | (simp [deepEqual] at h)

theorem deepEqualList_iff (xs : List Value) :
    ∀ ys, deepEqualList xs ys = true ↔ List.Forall₂ (fun x y => deepEqual x y = true) xs ys := by
  induction xs with
  | nil =>
    intro ys
    cases ys with
    | nil => simp [deepEqualList]
    | cons y ys => simp [deepEqualList]
  | cons x xs ih =>
    intro ys
    cases ys with
    | nil => simp [deepEqualList]
    | cons y ys => simp [deepEqualList, ih]

theorem deepEqualMap_iff (l r : List (String × Value)) :
    deepEqualMap l r = true ↔
      ∀ k v, (k, v) ∈ l → ∃ w, mapGet r k = some w ∧ deepEqual v w = true := by
  induction l with
  | nil => simp [deepEqualMap]
  | cons kv rest ih =>
    obtain ⟨k0, v0⟩ := kv
    simp only [deepEqualMap, Bool.and_eq_true, ih, List.mem_cons]
    constructor
    · rintro ⟨h1, h2⟩ k v (hkv | hkv)
      · cases hkv
        cases hg : mapGet r k0 with
        | none => rw [hg] at h1; cases h1
        | some w => rw [hg] at h1; exact ⟨w, rfl, h1⟩
      · exact h2 k v hkv
    · intro h
      refine ⟨?_, fun k v hkv => h k v (Or.inr hkv)⟩
      obtain ⟨w, hw, hd⟩ := h k0 v0 (Or.inl rfl)
      rw [hw]; exact hd


/-- Keys of a map. -/
theorem mapGet_isSome_iff (m : List (String × Value)) (k : String) :
    (mapGet m k).isSome = true ↔ k ∈ m.map Prod.fst := by
  induction m with
  | nil => simp [mapGet]
  | cons kv rest ih =>
    obtain ⟨k0, v0⟩ := kv
    unfold mapGet
    by_cases h : k0 = k
    · simp [h]
    · simp only [if_neg h, ih, List.map_cons, List.mem_cons]
      constructor
      · exact Or.inr
      · rintro (h1 | h1)
        · exact absurd h1.symm h
        · exact h1

theorem mapGet_eq_some_iff (m : List (String × Value)) (hm : (m.map Prod.fst).Nodup)
    (k : String) (v : Value) : mapGet m k = some v ↔ (k, v) ∈ m := by
  induction m with
  | nil => simp [mapGet]
  | cons kv rest ih =>
    obtain ⟨k0, v0⟩ := kv
    rw [List.map_cons, List.nodup_cons] at hm
    unfold mapGet
    by_cases h : k0 = k
    · subst h
      simp only [if_true, List.mem_cons, Option.some.injEq, Prod.mk.injEq, true_and]
      constructor
      · intro hv; exact Or.inl hv.symm
      · rintro (hv | hv)
        · exact hv.symm
        · exact absurd (List.mem_map_of_mem Prod.fst hv) hm.1
    · simp only [if_neg h, ih hm.2, List.mem_cons, Prod.mk.injEq]
      constructor
      · exact Or.inr
      · rintro (⟨h1, _⟩ | h1)
        · exact absurd h1.symm h
        · exact h1

/-- Deep equality of two sequences: both nil or both non-nil, of one length,
and either one slice or pairwise deep-equal in order. -/
theorem deepEqual_array_iff (p q : Ref) (xs ys : List Value) :
    deepEqual (.array p xs) (.array q ys) = true ↔
      p.isNil = q.isNil ∧ xs.length = ys.length
        ∧ (Ref.same p q = true ∨ List.Forall₂ (fun x y => deepEqual x y = true) xs ys) := by
  simp only [deepEqual, Bool.and_eq_true, Bool.or_eq_true, beq_iff_eq, decide_eq_true_eq,
    deepEqualList_iff, and_assoc]

/-- Deep equality of two maps: both nil or both non-nil, with as many
entries, and either one map or every entry of the left one met by a deep-equal
entry of the right one under the same key. -/
theorem deepEqual_map_iff (p q : Ref) (m1 m2 : List (String × Value)) :
    deepEqual (.map p m1) (.map q m2) = true ↔
      p.isNil = q.isNil ∧ m1.length = m2.length
        ∧ (Ref.same p q = true
            ∨ ∀ k v, (k, v) ∈ m1 → ∃ w, mapGet m2 k = some w ∧ deepEqual v w = true) := by
  simp only [deepEqual, Bool.and_eq_true, Bool.or_eq_true, beq_iff_eq, decide_eq_true_eq,
    deepEqualMap_iff, and_assoc]

/-- Deep equality of two distinct maps with unique keys: both nil or both
non-nil, the same key set, and deep-equal values under each key. -/
theorem deepEqual_map_keys_iff (p q : Ref) (m1 m2 : List (String × Value))
    (h1 : (m1.map Prod.fst).Nodup) (h2 : (m2.map Prod.fst).Nodup)
    (hpq : Ref.same p q = false) :
    deepEqual (.map p m1) (.map q m2) = true ↔
      p.isNil = q.isNil
      ∧ (∀ k, (mapGet m1 k).isSome = (mapGet m2 k).isSome)
      ∧ (∀ k v w, mapGet m1 k = some v → mapGet m2 k = some w → deepEqual v w = true) := by
  rw [deepEqual_map_iff, hpq]
  simp only [Bool.false_eq_true, false_or]
  constructor
  · rintro ⟨hnil, hlen, hall⟩
    have hsub : m1.map Prod.fst ⊆ m2.map Prod.fst := by
      intro k hk
      obtain ⟨⟨k', v⟩, hkv, rfl⟩ := List.mem_map.mp hk
      obtain ⟨w, hw, _⟩ := hall k' v hkv
      exact (mapGet_isSome_iff m2 k').mp (by rw [hw]; rfl)
    have hperm : (m1.map Prod.fst).Perm (m2.map Prod.fst) :=
      (h1.subperm hsub).perm_of_length_le (by simp [hlen])
    refine ⟨hnil, fun k => ?_, fun k v w hv hw => ?_⟩
    · rw [Bool.eq_iff_iff, mapGet_isSome_iff, mapGet_isSome_iff]
      exact hperm.mem_iff
    · obtain ⟨w', hw', hd⟩ := hall k v ((mapGet_eq_some_iff m1 h1 k v).mp hv)
      rw [hw] at hw'
      cases hw'
      exact hd
  · rintro ⟨hnil, hkeys, hvals⟩
    have hmem : ∀ k, k ∈ m1.map Prod.fst ↔ k ∈ m2.map Prod.fst := by
      intro k
      rw [← mapGet_isSome_iff, ← mapGet_isSome_iff, hkeys k]
    have hperm : (m1.map Prod.fst).Perm (m2.map Prod.fst) :=
      (List.perm_ext_iff_of_nodup h1 h2).mpr hmem
    refine ⟨hnil, by simpa using hperm.length_eq, fun k v hkv => ?_⟩
    have hv := (mapGet_eq_some_iff m1 h1 k v).mpr hkv
    have hs : (mapGet m2 k).isSome = true := by rw [← hkeys k, hv]; rfl
    obtain ⟨w, hw⟩ := Option.isSome_iff_exists.mp hs
    exact ⟨w, hw, hvals k v w hv hw⟩

/-- C8 (as stated, refuted): deep equality of sequences is not the pairwise
comparison in order alone. A non-nil empty sequence is kept against a nil
one, though the two are pairwise equal, having no elements; and a sequence
holding a NaN is removed against that same slice, though a NaN is deep-equal
to nothing. -/
theorem sequence_exclusion_not_pairwise :
    Operator.Eval OpSub (.array .own [.array .own []]) (.array .own [.array .nil []])
        = .ok (.array .own [.array .own []])
      ∧ List.Forall₂ (fun x y => deepEqual x y = true) ([] : List Value) ([] : List Value)
      ∧ Operator.Eval OpSub (.array .own [.array (.addr 1) [.float .nan]])
            (.array .own [.array (.addr 1) [.float .nan]])
        = .ok (.array .own [])
      ∧ ¬ List.Forall₂ (fun x y => deepEqual x y = true) [Value.float .nan] [Value.float .nan] := by
  refine ⟨rfl, List.Forall₂.nil, rfl, ?_⟩
  intro h
  cases h with
  | cons h1 _ => exact absurd h1 (by decide)

/-- C8 (amended): sequence exclusion. For all sequences `l` and `r`, under any
headers, `Eval(Sub, l, r)` is a new sequence: `l` filtered, keeping in order
and with their multiplicity exactly the elements that are deep-equal to no
element of `r`. Deep equality requires the kinds to match (`Int 1` is not equal
to `Float 1.0`); it is equality on `Null`, `Int`, `String` and booleans, and
`==` on `Float` (a NaN equals nothing, infinities by sign, finite numbers by
value); two sequences are deep-equal when they are both nil or both non-nil,
of one length, and either the same slice or pairwise deep-equal in order; two
maps when they are both nil or both non-nil, with as many entries, and either
the same map or, key by key, with deep-equal values, which for distinct maps
with unique keys is the same key set and deep-equal values. And
`Eval(Sub, [1,2,2,3], [2]) = [1,3]`. -/
theorem sequence_exclusion (p q : Ref) (l r : List Value) :
    Operator.Eval OpSub (.array p l) (.array q r)
        = .ok (.array .own (l.filter (fun v => !r.any (fun w => deepEqual v w))))
      ∧ (∀ v w, deepEqual v w = true → v.kind = w.kind)
      ∧ deepEqual (.int 1) (.float (F64.ofInt 1)) = false
      ∧ deepEqual .null .null = true
      ∧ (∀ a b : Int, deepEqual (.int a) (.int b) = true ↔ a = b)
      ∧ (∀ a b : String, deepEqual (.string a) (.string b) = true ↔ a = b)
      ∧ (∀ a b : Bool, deepEqual (.bool a) (.bool b) = true ↔ a = b)
      ∧ (∀ a b : List String, deepEqual (.strs a) (.strs b) = true ↔ a = b)
      ∧ (∀ v1 l1 r1 v2 l2 r2, deepEqual (.err v1 l1 r1) (.err v2 l2 r2) = true ↔
          v1 = v2 ∧ deepEqual l1 l2 = true ∧ deepEqual r1 r2 = true)
      ∧ (∀ y, deepEqual (.float .nan) (.float y) = false)
      ∧ (∀ x, deepEqual (.float x) (.float .nan) = false)
      ∧ (∀ a b, deepEqual (.float (.inf a)) (.float (.inf b)) = true ↔ a = b)
      ∧ (∀ a n m e, deepEqual (.float (.inf a)) (.float (.fin n m e)) = false
          ∧ deepEqual (.float (.fin n m e)) (.float (.inf a)) = false)
      ∧ (∀ n1 m1 e1 n2 m2 e2,
          deepEqual (.float (.fin n1 m1 e1)) (.float (.fin n2 m2 e2)) = true ↔
            F64.toRat (.fin n1 m1 e1) = F64.toRat (.fin n2 m2 e2))
      ∧ (∀ p1 p2 xs ys, deepEqual (.array p1 xs) (.array p2 ys) = true ↔
          p1.isNil = p2.isNil ∧ xs.length = ys.length
            ∧ (Ref.same p1 p2 = true
                ∨ List.Forall₂ (fun x y => deepEqual x y = true) xs ys))
      ∧ (∀ p1 p2 m1 m2, deepEqual (.map p1 m1) (.map p2 m2) = true ↔
          p1.isNil = p2.isNil ∧ m1.length = m2.length
            ∧ (Ref.same p1 p2 = true
                ∨ ∀ k v, (k, v) ∈ m1 → ∃ w, mapGet m2 k = some w ∧ deepEqual v w = true))
      ∧ (∀ p1 p2 m1 m2, (m1.map Prod.fst).Nodup → (m2.map Prod.fst).Nodup →
          Ref.same p1 p2 = false →
          (deepEqual (.map p1 m1) (.map p2 m2) = true ↔
            p1.isNil = p2.isNil
            ∧ (∀ k, (mapGet m1 k).isSome = (mapGet m2 k).isSome)
            ∧ (∀ k v w, mapGet m1 k = some v → mapGet m2 k = some w → deepEqual v w = true)))
      ∧ Operator.Eval OpSub (.array .own [.int 1, .int 2, .int 2, .int 3]) (.array .own [.int 2])
          = .ok (.array .own [.int 1, .int 3])
      ∧ Operator.Eval OpSub
            (.array .own [.string "a", .null, .bool true, .float (F64.ofInt 1), .int 1,
              .string "b", .array .own [.string "a"], .map .own [("k", .null)]])
            (.array .own [.string "a", .null, .bool true, .float (F64.ofInt 1),
              .array .own [.string "a"], .map .own [("k", .null)]])
          = .ok (.array .own [.int 1, .string "b"]) := by
  refine ⟨?_, deepEqual_kind, rfl, rfl, ?_, ?_, ?_, ?_, ?_, ?_, ?_, ?_, ?_, ?_,
    deepEqual_array_iff, deepEqual_map_iff, deepEqual_map_keys_iff, rfl, rfl⟩
  · rw [Eval_sub]
    simp only [funcOpSub, binopTypeSwitch, subLoop_eq_filter, List.nil_append]
  · intro a b
    simp only [deepEqual, decide_eq_true_eq]
  · intro a b
    simp only [deepEqual, decide_eq_true_eq]
  · intro a b
    simp only [deepEqual, decide_eq_true_eq]
  · intro a b
    simp only [deepEqual, decide_eq_true_eq]
  · intro v1 l1 r1 v2 l2 r2
    simp only [deepEqual, Bool.and_eq_true, decide_eq_true_eq, and_assoc]
  · intro y
    cases y <;> rfl
  · intro x
    cases x <;> rfl
  · intro a b
    simp only [deepEqual, F64.eq, beq_iff_eq]
  · intro a n m e
    exact ⟨rfl, rfl⟩
  · intro n1 m1 e1 n2 m2 e2
    simp only [deepEqual]
    exact F64.eq_fin_iff n1 m1 e1 n2 m2 e2

/-- C8 (amended), at instances: a nil and a non-nil empty sequence next to
numbers of both kinds, and two distinct maps with the same entries in another
order. -/
theorem sequence_exclusion_witness :
    Operator.Eval OpSub
          (.array (.addr 3) [.int 1, .float (F64.ofInt 1), .array .nil [], .string "a"])
          (.array .own [.float (F64.ofInt 1), .array .own []])
        = .ok (.array .own
            ([.int 1, .float (F64.ofInt 1), .array .nil [], .string "a"].filter
              (fun v => !([.float (F64.ofInt 1), .array .own []] : List Value).any
                (fun w => deepEqual v w))))
      ∧ (deepEqual (.map .own [("a", .int 1), ("b", .null)])
            (.map (.addr 2) [("b", .null), ("a", .int 1)]) = true ↔
          Ref.isNil .own = Ref.isNil (.addr 2)
          ∧ (∀ k, (mapGet [("a", .int 1), ("b", .null)] k).isSome
              = (mapGet [("b", .null), ("a", .int 1)] k).isSome)
          ∧ (∀ k v w, mapGet [("a", .int 1), ("b", .null)] k = some v →
              mapGet [("b", .null), ("a", .int 1)] k = some w → deepEqual v w = true)) :=
  ⟨(sequence_exclusion _ _ _ _).1,
    (sequence_exclusion .own .own [] []).2.2.2.2.2.2.2.2.2.2.2.2.2.2.2.2.1 .own (.addr 2)
      [("a", .int 1), ("b", .null)] [("b", .null), ("a", .int 1)]
      (by decide) (by decide) rfl⟩

/-! ## Mapping merge -/

theorem mapGet_mapSet (m : List (String × Value)) (k : String) (v : Value) (k' : String) :
    mapGet (mapSet m k v) k' = if k = k' then some v else mapGet m k' := by
  induction m with
  | nil => simp [mapSet, mapGet]
  | cons kv rest ih =>
    obtain ⟨k0, v0⟩ := kv
    unfold mapSet
    by_cases h : k0 = k
    · subst h
      simp only [if_true, mapGet]
      split <;> rfl
    · rw [if_neg h]
      unfold mapGet
      by_cases h2 : k0 = k'
      · subst h2
        simp [Ne.symm h]
      · rw [if_neg h2, if_neg h2, ih]

theorem mapSet_keys (m : List (String × Value)) (k : String) (v : Value) :
    (mapSet m k v).map Prod.fst
      = if k ∈ m.map Prod.fst then m.map Prod.fst else m.map Prod.fst ++ [k] := by
  induction m with
  | nil => simp [mapSet]
  | cons kv rest ih =>
    obtain ⟨k0, v0⟩ := kv
    unfold mapSet
    by_cases h : k0 = k
    · subst h
      simp
    · rw [if_neg h, List.map_cons, ih]
      have hne : ¬ k = k0 := fun e => h e.symm
      by_cases h2 : k ∈ rest.map Prod.fst
      · simp [h2]
      · simp [h2, hne]

theorem mapSet_nodup (m : List (String × Value)) (k : String) (v : Value)
    (hm : (m.map Prod.fst).Nodup) : ((mapSet m k v).map Prod.fst).Nodup := by
  rw [mapSet_keys]
  split
  · exact hm
  · rename_i h
    rw [List.nodup_append]
    refine ⟨hm, List.nodup_singleton k, ?_⟩
    intro a ha hb
    rw [List.mem_singleton] at hb
    subst hb
    exact h ha

theorem foldl_mapSet_nodup (kvs : List (String × Value)) :
    ∀ m : List (String × Value), (m.map Prod.fst).Nodup →
      ((kvs.foldl (fun m kv => mapSet m kv.1 kv.2) m).map Prod.fst).Nodup := by
  induction kvs with
  | nil => intro m hm; exact hm
  | cons kv rest ih => intro m hm; exact ih _ (mapSet_nodup m kv.1 kv.2 hm)

/-- Reading a map after the entries of `kvs`, whose keys are unique, were
written into it: the entry of `kvs` if there is one, else the old entry. -/
theorem mapGet_foldl_mapSet (kvs : List (String × Value)) (hk : (kvs.map Prod.fst).Nodup)
    (k : String) :
    ∀ m : List (String × Value),
      mapGet (kvs.foldl (fun m kv => mapSet m kv.1 kv.2) m) k
        = match mapGet kvs k with
          | some v => some v
          | none => mapGet m k := by
  induction kvs with
  | nil => intro m; rfl
  | cons kv rest ih =>
    obtain ⟨k0, v0⟩ := kv
    rw [List.map_cons, List.nodup_cons] at hk
    intro m
    rw [List.foldl_cons, ih hk.2]
    by_cases h : k0 = k
    · subst h
      have hnone : mapGet rest k0 = none := by
        cases hg : mapGet rest k0 with
        | none => rfl
        | some w =>
          have : (mapGet rest k0).isSome = true := by rw [hg]; rfl
          exact absurd ((mapGet_isSome_iff rest k0).mp this) hk.1
      rw [hnone]
      simp [mapGet, mapGet_mapSet]
    · simp only [mapGet, if_neg h, mapGet_mapSet]

/-- Reading the merge of two maps with unique keys. -/
theorem mapGet_mergeMaps (l r : List (String × Value))
    (hl : (l.map Prod.fst).Nodup) (hr : (r.map Prod.fst).Nodup) (k : String) :
    mapGet (mergeMaps l r) k
      = match mapGet r k with
        | some v => some v
        | none => mapGet l k := by
  unfold mergeMaps
  rw [mapGet_foldl_mapSet r hr k, mapGet_foldl_mapSet l hl k]
  cases mapGet r k with
  | some v => rfl
  | none =>
    cases mapGet l k with
    | some v => rfl
    | none => rfl

/-- C9: mapping merge. For all maps `l` and `r` (association lists with unique
keys, under any headers, nil included), `Eval(Add, l, r)` is a map `m` with
unique keys whose key set is the union of those of `l` and `r`, with
`m[k] = r[k]` for every key of `r` and `m[k] = l[k]` for every key of `l` that
is none of `r`. And `Eval(Add, {"a":1}, {"a":2,"b":3}) = {"a":2,"b":3}`. -/
theorem mapping_merge (p q : Ref) (l r : List (String × Value))
    (hl : (l.map Prod.fst).Nodup) (hr : (r.map Prod.fst).Nodup) :
    Operator.Eval OpAdd (.map p l) (.map q r) = .ok (.map .own (mergeMaps l r))
      ∧ ((mergeMaps l r).map Prod.fst).Nodup
      ∧ (∀ k, k ∈ (mergeMaps l r).map Prod.fst ↔ k ∈ l.map Prod.fst ∨ k ∈ r.map Prod.fst)
      ∧ (∀ k v, mapGet r k = some v → mapGet (mergeMaps l r) k = some v)
      ∧ (∀ k, mapGet r k = none → mapGet (mergeMaps l r) k = mapGet l k)
      ∧ Operator.Eval OpAdd (.map .own [("a", .int 1)])
            (.map .own [("a", .int 2), ("b", .int 3)])
          = .ok (.map .own [("a", .int 2), ("b", .int 3)]) := by
  refine ⟨rfl, ?_, ?_, ?_, ?_, rfl⟩
  · exact foldl_mapSet_nodup r _ (foldl_mapSet_nodup l [] List.nodup_nil)
  · intro k
    rw [← mapGet_isSome_iff, ← mapGet_isSome_iff, ← mapGet_isSome_iff, mapGet_mergeMaps l r hl hr k]
    cases mapGet r k with
    | some v => simp
    | none => simp
  · intro k v h
    rw [mapGet_mergeMaps l r hl hr k, h]
  · intro k h
    rw [mapGet_mergeMaps l r hl hr k, h]

/-- C9, at the instance of the specification. -/
theorem mapping_merge_witness :
    Operator.Eval OpAdd (.map .own [("a", .int 1)]) (.map .own [("a", .int 2), ("b", .int 3)])
      = .ok (.map .own (mergeMaps [("a", .int 1)] [("a", .int 2), ("b", .int 3)])) :=
  (mapping_merge .own .own [("a", .int 1)] [("a", .int 2), ("b", .int 3)]
    (by decide) (by decide)).1


/-! ## String split -/

/-- C10: what `Div` returns on two strings is the `[]string` of
`strings.Split`, a dynamic type that the dispatch does not take for a
sequence, and never a `[]interface{}`: so `"a,b,c" / ","` is the string slice
`["a", "b", "c"]`, and adding the empty sequence to it is a type error. -/
theorem div_strings_returns_string_slice (l r : String) :
    Operator.Eval OpDiv (.string l) (.string r) = .ok (.strs (stringsSplit l r))
      ∧ (∀ p xs, Operator.Eval OpDiv (.string l) (.string r) ≠ .ok (.array p xs))
      ∧ Operator.Eval OpDiv (.string "a,b,c") (.string ",") = .ok (.strs ["a", "b", "c"])
      ∧ Operator.Eval OpDiv (.string "a,b,c") (.string ",")
          ≠ .ok (.array .own [.string "a", .string "b", .string "c"])
      ∧ Operator.Eval OpAdd (.strs ["a", "b", "c"]) (.array .own [])
          = .ok (.err "add" (.strs ["a", "b", "c"]) (.array .own [])) := by
  have h : Operator.Eval OpDiv (.string l) (.string r) = .ok (.strs (stringsSplit l r)) := rfl
  refine ⟨h, ?_, rfl, ?_, rfl⟩
  · intro p xs hx
    rw [h] at hx
    cases hx
  · intro hx
    cases hx

/-! ## Closure of the value domain -/

/-- C11: the result of `Div` on two strings is of none of the six kinds and
no type error: it is the `[]string` of `strings.Split`. Fed back as the left
or right operand of `Add` or `Sub` next to a sequence, it is not taken for a
sequence: each of these calls returns a type error. -/
theorem div_strings_result_not_closed (a b : String) (p : Ref) (xs : List Value) :
    Operator.Eval OpDiv (.string a) (.string b) = .ok (.strs (stringsSplit a b))
      ∧ isSixKind (.strs (stringsSplit a b)) = false
      ∧ isBinopTypeError (.strs (stringsSplit a b)) = false
      ∧ Operator.Eval OpAdd (.strs (stringsSplit a b)) (.array p xs)
          = .ok (.err "add" (.strs (stringsSplit a b)) (.array p xs))
      ∧ Operator.Eval OpAdd (.array p xs) (.strs (stringsSplit a b))
          = .ok (.err "add" (.array p xs) (.strs (stringsSplit a b)))
      ∧ Operator.Eval OpSub (.strs (stringsSplit a b)) (.array p xs)
          = .ok (.err "subtract" (.strs (stringsSplit a b)) (.array p xs))
      ∧ Operator.Eval OpSub (.array p xs) (.strs (stringsSplit a b))
          = .ok (.err "subtract" (.array p xs) (.strs (stringsSplit a b))) := by
  exact ⟨rfl, rfl, rfl, rfl, rfl, rfl, rfl⟩

/-! ## Integer arithmetic -/

/-- Within the range of `int` the wrap changes nothing. -/
theorem wrapInt_of_range (x : Int) (h1 : minInt ≤ x) (h2 : x ≤ maxInt) : wrapInt x = x := by
  unfold wrapInt
  unfold minInt at h1
  unfold maxInt at h2
  omega

/-- The wrap lands in the range of `int`. -/
theorem wrapInt_range (x : Int) : minInt ≤ wrapInt x ∧ wrapInt x ≤ maxInt := by
  unfold wrapInt minInt maxInt
  constructor <;> omega

/-- C12 (as stated, refuted): the largest `int` plus one is the smallest
`int`, not the `Int` of the sum. -/
theorem int_add_overflow_wraps :
    Operator.Eval OpAdd (.int (2 ^ 63 - 1)) (.int 1) = .ok (.int (-(2 ^ 63)))
      ∧ Operator.Eval OpAdd (.int (2 ^ 63 - 1)) (.int 1) ≠ .ok (.int (2 ^ 63 - 1 + 1)) := by
  refine ⟨rfl, ?_⟩
  intro h
  have h2 : Operator.Eval OpAdd (.int (2 ^ 63 - 1)) (.int 1) = .ok (.int (-(2 ^ 63))) := rfl
  rw [h2] at h
  injection h with h
  injection h with h
  exact absurd h (by decide)

/-- C12 (amended): for all integers `a` and `b`, `Eval(Add, Int a, Int b)`,
`Eval(Sub, Int a, Int b)` and `Eval(Mul, Int a, Int b)` are of kind `Int` and
hold `a+b`, `a-b` and `a*b` wrapped into the 64-bit range of `int`; whenever
the exact sum, difference or product lies in that range, they hold it
itself. -/
theorem int_arith (a b : Int) :
    Operator.Eval OpAdd (.int a) (.int b) = .ok (.int (wrapInt (a + b)))
      ∧ Operator.Eval OpSub (.int a) (.int b) = .ok (.int (wrapInt (a - b)))
      ∧ Operator.Eval OpMul (.int a) (.int b) = .ok (.int (wrapInt (a * b)))
      ∧ (minInt ≤ a + b → a + b ≤ maxInt →
          Operator.Eval OpAdd (.int a) (.int b) = .ok (.int (a + b)))
      ∧ (minInt ≤ a - b → a - b ≤ maxInt →
          Operator.Eval OpSub (.int a) (.int b) = .ok (.int (a - b)))
      ∧ (minInt ≤ a * b → a * b ≤ maxInt →
          Operator.Eval OpMul (.int a) (.int b) = .ok (.int (a * b))) := by
  refine ⟨rfl, rfl, rfl, ?_, ?_, ?_⟩
  · intro h1 h2
    show Except.ok (Value.int (wrapInt (a + b))) = _
    rw [wrapInt_of_range _ h1 h2]
  · intro h1 h2
    show Except.ok (Value.int (wrapInt (a - b))) = _
    rw [wrapInt_of_range _ h1 h2]
  · intro h1 h2
    show Except.ok (Value.int (wrapInt (a * b))) = _
    rw [wrapInt_of_range _ h1 h2]

/-- C12 (amended), at instances. -/
theorem int_arith_witness :
    Operator.Eval OpAdd (.int 40) (.int 2) = .ok (.int (40 + 2))
      ∧ Operator.Eval OpSub (.int 40) (.int 2) = .ok (.int (40 - 2))
      ∧ Operator.Eval OpMul (.int 40) (.int 2) = .ok (.int (40 * 2)) :=
  ⟨(int_arith 40 2).2.2.2.1 (by decide) (by decide),
    (int_arith 40 2).2.2.2.2.1 (by decide) (by decide),
    (int_arith 40 2).2.2.2.2.2 (by decide) (by decide)⟩

/-- The truncated quotient stays in the range of `int`, but for the smallest
`int` divided by `-1`. -/
theorem tdiv_range (a b : Int) (h1 : minInt ≤ a) (h2 : a ≤ maxInt) (hb : b ≠ 0)
    (hov : ¬ (a = minInt ∧ b = -1)) :
    minInt ≤ Int.tdiv a b ∧ Int.tdiv a b ≤ maxInt := by
  have hnat : (Int.tdiv a b).natAbs = a.natAbs / b.natAbs := Int.natAbs_tdiv a b
  unfold minInt at h1 hov ⊢
  unfold maxInt at h2 ⊢
  by_cases hb1 : b = 1
  · subst hb1
    rw [Int.tdiv_one]
    exact ⟨h1, h2⟩
  · by_cases hb2 : b = -1
    · subst hb2
      have : Int.tdiv a (-1) = -a := by
        rw [Int.tdiv_neg, Int.tdiv_one]
      rw [this]
      have : a ≠ -(2 ^ 63) := fun e => hov ⟨e, rfl⟩
      constructor <;> omega
    · have hb3 : 2 ≤ b.natAbs := by omega
      have hle : a.natAbs / b.natAbs ≤ a.natAbs / 2 := Nat.div_le_div_left hb3 (by decide)
      have ha : a.natAbs ≤ 2 ^ 63 := by omega
      have : (Int.tdiv a b).natAbs ≤ 2 ^ 62 := by
        rw [hnat]
        omega
      constructor <;> omega

theorem tmod_neg_left (a b : Int) : Int.tmod (-a) b = -Int.tmod a b := by
  rw [Int.tmod_def, Int.tmod_def, Int.neg_tdiv]
  ring

/-- The remainder of the truncating division is smaller than the divisor. -/
theorem tmod_abs_lt (a b : Int) (hb : b ≠ 0) : |Int.tmod a b| < |b| := by
  have hc : 0 < |b| := abs_pos.mpr hb
  have hmod : Int.tmod a b = Int.tmod a |b| := by
    rcases abs_choice b with h | h
    · rw [h]
    · rw [h, Int.tmod_neg]
  rw [hmod]
  rcases le_total 0 a with ha | ha
  · have h1 := Int.tmod_nonneg |b| ha
    have h2 := Int.tmod_lt_of_pos a hc
    rw [abs_of_nonneg h1]
    exact h2
  · have h1 : 0 ≤ Int.tmod (-a) |b| := Int.tmod_nonneg |b| (by omega)
    have h2 := Int.tmod_lt_of_pos (-a) hc
    rw [tmod_neg_left] at h1 h2
    rw [abs_of_nonpos (by omega)]
    exact h2

/-- C13 (as stated, refuted): the smallest `int` divided by `-1` is the
smallest `int` again, which is no quotient of the two: no remainder smaller
than the divisor makes up the difference. -/
theorem int_div_overflow_wraps :
    Operator.Eval OpDiv (.int (-(2 ^ 63))) (.int (-1)) = .ok (.int (-(2 ^ 63)))
      ∧ ¬ ∃ rem : Int, -(2 ^ 63) = -(2 ^ 63) * (-1) + rem ∧ |rem| < |(-1 : Int)| := by
  refine ⟨rfl, ?_⟩
  rintro ⟨rem, h1, h2⟩
  rw [abs_lt] at h2
  simp only [abs_neg, abs_one] at h2
  omega

/-- C13 (amended): for all integers `a` of the range of `int` and `b ≠ 0`,
other than the smallest `int` divided by `-1`, `Eval(Div, Int a, Int b)` is
the `Int q` with `q` the quotient rounded toward zero: `a = q*b + rem` with
`|rem| < |b|` and `rem` of the sign of `a` or zero. -/
theorem int_div_truncates (a b : Int) (h1 : minInt ≤ a) (h2 : a ≤ maxInt) (hb : b ≠ 0)
    (hov : ¬ (a = minInt ∧ b = -1)) :
    Operator.Eval OpDiv (.int a) (.int b) = .ok (.int (Int.tdiv a b))
      ∧ a = Int.tdiv a b * b + Int.tmod a b
      ∧ |Int.tmod a b| < |b|
      ∧ (0 ≤ a → 0 ≤ Int.tmod a b)
      ∧ (a ≤ 0 → Int.tmod a b ≤ 0) := by
  have hr := tdiv_range a b h1 h2 hb hov
  refine ⟨?_, (Int.tdiv_add_tmod' a b).symm, ?_, ?_, ?_⟩
  · rw [Eval_div]
    simp only [funcOpDiv, binopTypeSwitch, if_neg hb]
    rw [wrapInt_of_range _ hr.1 hr.2]
  · exact tmod_abs_lt a b hb
  · intro ha
    exact Int.tmod_nonneg b ha
  · intro ha
    have : 0 ≤ Int.tmod (-a) b := Int.tmod_nonneg b (by omega)
    rw [tmod_neg_left] at this
    omega

/-- C13 (amended), at the instance of the specification: `7 / 2 = 3`. -/
theorem int_div_truncates_witness :
    Operator.Eval OpDiv (.int 7) (.int 2) = .ok (.int (Int.tdiv 7 2))
      ∧ (7 : Int) = Int.tdiv 7 2 * 2 + Int.tmod 7 2
      ∧ |Int.tmod 7 2| < |(2 : Int)|
      ∧ ((0 : Int) ≤ 7 → 0 ≤ Int.tmod 7 2)
      ∧ ((7 : Int) ≤ 0 → Int.tmod 7 2 ≤ 0) :=
  int_div_truncates 7 2 (by decide) (by decide) (by decide) (by decide)

/-! ## Numeric promotion -/

/-- On two numeric operands the kind of a returned value is `Int` exactly when
both operands are `Int`. -/
theorem numeric_result_kind (op : Operator) (l r v : Value)
    (hop : op = OpAdd ∨ op = OpSub ∨ op = OpMul ∨ op = OpDiv)
    (hl : isNumeric l = true) (hr : isNumeric r = true)
    (h : Operator.Eval op l r = .ok v) :
    v.kind = .int ↔ (l.kind = .int ∧ r.kind = .int) := by
  rcases hop with rfl | rfl | rfl | rfl
  all_goals
    cases l <;> cases r <;>
    first
    | exact absurd hl Bool.false_ne_true
    | exact absurd hr Bool.false_ne_true
    | (cases h; simp [Value.kind])
    | (rw [Eval_div] at h
       simp only [funcOpDiv, binopTypeSwitch] at h
       split at h
       · cases h
       · cases h; simp [Value.kind])

/-- C14: numeric promotion. For each of the four operators and numeric
operands, a returned value is of kind `Int` if and only if both operands are
`Int`; as soon as one operand is a `Float`, an `Int` operand is converted with
`float64(.)` and the result is the `float64` operation on the two, for
instance `Eval(Add, Float x, Int b) = Float(x + float(b))` and
`Eval(Add, Int a, Float y) = Float(float(a) + y)`. -/
theorem numeric_promotion (a b : Int) (x y : F64) :
    (∀ op l r v, (op = OpAdd ∨ op = OpSub ∨ op = OpMul ∨ op = OpDiv) →
        isNumeric l = true → isNumeric r = true → Operator.Eval op l r = .ok v →
        (v.kind = .int ↔ (l.kind = .int ∧ r.kind = .int)))
      ∧ Operator.Eval OpAdd (.float x) (.int b) = .ok (.float (F64.add x (F64.ofInt b)))
      ∧ Operator.Eval OpAdd (.int a) (.float y) = .ok (.float (F64.add (F64.ofInt a) y))
      ∧ Operator.Eval OpAdd (.float x) (.float y) = .ok (.float (F64.add x y))
      ∧ Operator.Eval OpSub (.float x) (.int b) = .ok (.float (F64.sub x (F64.ofInt b)))
      ∧ Operator.Eval OpSub (.int a) (.float y) = .ok (.float (F64.sub (F64.ofInt a) y))
      ∧ Operator.Eval OpSub (.float x) (.float y) = .ok (.float (F64.sub x y))
      ∧ Operator.Eval OpMul (.float x) (.int b) = .ok (.float (F64.mul x (F64.ofInt b)))
      ∧ Operator.Eval OpMul (.int a) (.float y) = .ok (.float (F64.mul (F64.ofInt a) y))
      ∧ Operator.Eval OpMul (.float x) (.float y) = .ok (.float (F64.mul x y))
      ∧ Operator.Eval OpDiv (.float x) (.int b) = .ok (.float (F64.div x (F64.ofInt b)))
      ∧ Operator.Eval OpDiv (.int a) (.float y) = .ok (.float (F64.div (F64.ofInt a) y))
      ∧ Operator.Eval OpDiv (.float x) (.float y) = .ok (.float (F64.div x y)) := by
  exact ⟨numeric_result_kind, rfl, rfl, rfl, rfl, rfl, rfl, rfl, rfl, rfl, rfl, rfl, rfl⟩

/-- C14, at an instance: `1.5 + 2`, of kind `Float`. -/
theorem numeric_promotion_witness :
    (Value.float (F64.add (.fin false (3 * 2 ^ 51) (-52)) (F64.ofInt 2))).kind = .int
      ↔ ((Value.float (.fin false (3 * 2 ^ 51) (-52))).kind = .int
          ∧ (Value.int 2).kind = .int) :=
  (numeric_promotion 0 0 .nan .nan).1 OpAdd (.float (.fin false (3 * 2 ^ 51) (-52))) (.int 2)
    (.float (F64.add (.fin false (3 * 2 ^ 51) (-52)) (F64.ofInt 2))) (Or.inl rfl) rfl rfl rfl

/-! ## The operator registry -/

/-- C15: symbol round trip. For each of the four symbols, capturing it (as the
first element of any slice) succeeds and rendering the captured tag gives the
symbol back; the four symbols map to four distinct tags. -/
theorem symbol_round_trip :
    (∀ s, s ∈ ["+", "-", "*", "/"] → ∀ rest : List String,
        ∃ op, Operator.Capture (s :: rest) = .ok op ∧ Operator.String op = .ok s)
      ∧ Operator.Capture ["+"] = .ok OpAdd
      ∧ Operator.Capture ["-"] = .ok OpSub
      ∧ Operator.Capture ["*"] = .ok OpMul
      ∧ Operator.Capture ["/"] = .ok OpDiv
      ∧ OpAdd ≠ OpSub ∧ OpAdd ≠ OpMul ∧ OpAdd ≠ OpDiv
      ∧ OpSub ≠ OpMul ∧ OpSub ≠ OpDiv ∧ OpMul ≠ OpDiv := by
  refine ⟨?_, rfl, rfl, rfl, rfl, by decide, by decide, by decide, by decide, by decide,
    by decide⟩
  intro s hs rest
  simp only [List.mem_cons, List.mem_singleton, List.not_mem_nil, or_false] at hs
  rcases hs with rfl | rfl | rfl | rfl
  · exact ⟨OpAdd, rfl, rfl⟩
  · exact ⟨OpSub, rfl, rfl⟩
  · exact ⟨OpMul, rfl, rfl⟩
  · exact ⟨OpDiv, rfl, rfl⟩

/-- C15, at the instance of the division symbol. -/
theorem symbol_round_trip_witness :
    ∃ op, Operator.Capture ["/", "x"] = .ok op ∧ Operator.String op = .ok "/" :=
  symbol_round_trip.1 "/" (by decide) ["x"]

/-- C16 (as stated, refuted): capturing the unknown symbol `"%"` succeeds and
sets the operator to the tag `Add`. -/
theorem capture_unknown_symbol_is_add :
    "%" ∉ ["+", "-", "*", "/"] ∧ Operator.Capture ["%"] = .ok OpAdd := by
  exact ⟨by decide, rfl⟩

/-- The keys of `operatorMap` are the four symbols. -/
theorem operatorMap_lookup_none (s : String) (hs : s ∉ ["+", "-", "*", "/"]) :
    operatorMap.lookup s = none := by
  simp only [List.mem_cons, List.mem_singleton, List.not_mem_nil, or_false, not_or] at hs
  obtain ⟨h1, h2, h3, h4⟩ := hs
  have e1 : (s == "+") = false := beq_eq_false_iff_ne.mpr h1
  have e2 : (s == "-") = false := beq_eq_false_iff_ne.mpr h2
  have e3 : (s == "*") = false := beq_eq_false_iff_ne.mpr h3
  have e4 : (s == "/") = false := beq_eq_false_iff_ne.mpr h4
  simp only [operatorMap, List.lookup, e1, e2, e3, e4]

/-- C16 (amended): the keys of the symbol-to-tag mapping are exactly the four
symbols; for every string `s` outside that set the lookup finds no entry, and
`Capture([s])` returns no error all the same, leaving the operator at the zero
value of its type, which is the tag `Add`. -/
theorem capture_unknown_symbol (s : String) (rest : List String)
    (hs : s ∉ ["+", "-", "*", "/"]) :
    operatorMap.lookup s = none
      ∧ operatorMap.map Prod.fst = ["+", "-", "*", "/"]
      ∧ Operator.Capture (s :: rest) = .ok OpAdd := by
  have h := operatorMap_lookup_none s hs
  refine ⟨h, rfl, ?_⟩
  simp only [Operator.Capture, operatorMapIndex, h]
  rfl

/-- C16 (amended), at the instance of the symbol `"%"`. -/
theorem capture_unknown_symbol_witness :
    operatorMap.lookup "%" = none
      ∧ operatorMap.map Prod.fst = ["+", "-", "*", "/"]
      ∧ Operator.Capture ["%"] = .ok OpAdd :=
  capture_unknown_symbol "%" [] (by decide)

/-! ## Merge under `Mul`, concatenation, foreign kinds -/

/-- C17: `Mul` on two maps, under any headers, is the merge of `Add`: the two
calls return the same map. The merge is shallow and right-biased: reading a key of the result
(for maps with unique keys) gives the whole entry of the right map when it has
the key, else that of the left map, and nested maps under one key are not
merged, the right one replaces the left one. -/
theorem mul_maps_eq_add_maps (p q : Ref) (l r : List (String × Value)) :
    Operator.Eval OpMul (.map p l) (.map q r) = Operator.Eval OpAdd (.map p l) (.map q r)
      ∧ Operator.Eval OpMul (.map p l) (.map q r) = .ok (.map .own (mergeMaps l r))
      ∧ ((l.map Prod.fst).Nodup → (r.map Prod.fst).Nodup →
          ∀ k, mapGet (mergeMaps l r) k
            = match mapGet r k with
              | some v => some v
              | none => mapGet l k)
      ∧ Operator.Eval OpMul (.map .own [("a", .map .own [("x", .int 1)])])
            (.map .own [("a", .map .own [("y", .int 2)])])
          = .ok (.map .own [("a", .map .own [("y", .int 2)])]) := by
  exact ⟨rfl, rfl, fun hl hr k => mapGet_mergeMaps l r hl hr k, rfl⟩

/-- C17, at an instance with a collision and a key on each side only. -/
theorem mul_maps_eq_add_maps_witness :
    Operator.Eval OpMul (.map .own [("a", .int 1), ("c", .null)])
        (.map (.addr 7) [("a", .int 2), ("b", .int 3)])
      = Operator.Eval OpAdd (.map .own [("a", .int 1), ("c", .null)])
          (.map (.addr 7) [("a", .int 2), ("b", .int 3)]) :=
  (mul_maps_eq_add_maps .own (.addr 7) [("a", .int 1), ("c", .null)]
    [("a", .int 2), ("b", .int 3)]).1

/-- C18: sequence concatenation. For all sequences `l` and `r`, under any
headers, `Eval(Add, l, r)` is the sequence of the elements of `l` in order followed by
those of `r` in order, nothing removed: its length is `len l + len r`, its
`i`-th element is `l[i]` for `i < len l` and `r[i - len l]` from there on. -/
theorem sequence_concat (p q : Ref) (l r : List Value) :
    Operator.Eval OpAdd (.array p l) (.array q r) = .ok (.array (appendRef p r) (l ++ r))
      ∧ (l ++ r).length = l.length + r.length
      ∧ (∀ i, i < l.length → (l ++ r)[i]? = l[i]?)
      ∧ (∀ i, l.length ≤ i → (l ++ r)[i]? = r[i - l.length]?) := by
  refine ⟨rfl, List.length_append l r, ?_, ?_⟩
  · intro i hi
    exact List.getElem?_append_left hi
  · intro i hi
    exact List.getElem?_append_right hi

/-- C18, at an instance with a repeated element. -/
theorem sequence_concat_witness :
    Operator.Eval OpAdd (.array .own [.int 1, .int 2]) (.array .own [.int 2, .string "a"])
      = .ok (.array (appendRef .own [.int 2, .string "a"])
          ([.int 1, .int 2] ++ [.int 2, .string "a"])) :=
  (sequence_concat .own .own [.int 1, .int 2] [.int 2, .string "a"]).1

/-- The fallback of `funcOpMul` on a pair with an operand outside the six
kinds. -/
theorem mulFallback_foreign (l r : Value)
    (h : isSixKind l = false ∨ isSixKind r = false) :
    mulFallback l r = .ok (.err "multiply" l r) := by
  rcases h with h | h
  · cases l <;> first | exact absurd h Bool.noConfusion | (cases r <;> rfl)
  · cases r <;> first | exact absurd h Bool.noConfusion | (cases l <;> rfl)

/-- C19: foreign kinds take the fallback path. For each of the four operators
and every pair of operands of which at least one is of none of the six kinds,
`Eval` returns, and what it returns is the `BinopTypeError` with the verb of
the operator and both operands, unless the operator is `Add` and an operand is
`Null`. -/
theorem foreign_kinds_fall_back (op : Operator) (l r : Value)
    (hop : op = OpAdd ∨ op = OpSub ∨ op = OpMul ∨ op = OpDiv)
    (hf : isSixKind l = false ∨ isSixKind r = false)
    (hna : ¬ (op = OpAdd ∧ (l = .null ∨ r = .null))) :
    Operator.Eval op l r = .ok (.err (verbOf op) l r) := by
  rcases hop with rfl | rfl | rfl | rfl
  · have hl0 : l ≠ .null := fun e => hna ⟨rfl, Or.inl e⟩
    have hr0 : r ≠ .null := fun e => hna ⟨rfl, Or.inr e⟩
    rcases hf with h | h
    · cases l <;> first | exact absurd h Bool.noConfusion | (cases r <;> first | contradiction | rfl)
    · cases r <;> first | exact absurd h Bool.noConfusion | (cases l <;> first | contradiction | rfl)
  · rcases hf with h | h
    · cases l <;> first | exact absurd h Bool.noConfusion | (cases r <;> rfl)
    · cases r <;> first | exact absurd h Bool.noConfusion | (cases l <;> rfl)
  · have hm := mulFallback_foreign l r hf
    rcases hf with h | h
    · cases l <;> first | exact absurd h Bool.noConfusion | (cases r <;> exact hm)
    · cases r <;> first | exact absurd h Bool.noConfusion | (cases l <;> exact hm)
  · rcases hf with h | h
    · cases l <;> first | exact absurd h Bool.noConfusion | (cases r <;> rfl)
    · cases r <;> first | exact absurd h Bool.noConfusion | (cases l <;> rfl)

/-- C19, at instances: a boolean under `Mul`, and a `BinopTypeError` of an
earlier call under `Sub`. -/
theorem foreign_kinds_fall_back_witness :
    Operator.Eval OpMul (.string "a") (.bool true)
        = .ok (.err (verbOf OpMul) (.string "a") (.bool true))
      ∧ Operator.Eval OpSub (.err "add" (.int 1) (.string "b")) (.int 2)
        = .ok (.err (verbOf OpSub) (.err "add" (.int 1) (.string "b")) (.int 2)) :=
  ⟨foreign_kinds_fall_back OpMul (.string "a") (.bool true) (Or.inr (Or.inr (Or.inl rfl)))
      (Or.inr rfl) (fun hc => absurd hc.1 (by decide)),
    foreign_kinds_fall_back OpSub (.err "add" (.int 1) (.string "b")) (.int 2)
      (Or.inr (Or.inl rfl)) (Or.inl rfl) (fun hc => absurd hc.1 (by decide))⟩

/-! ## Split and join -/

/-- At the index found, the string is what precedes it, the separator, and
what `genSplit` goes on with. -/
theorem stringsIndex_some (sep : List Char) :
    ∀ (s : List Char) (m : Nat), stringsIndex sep s = some m →
      s = s.take m ++ sep ++ s.drop (m + sep.length) := by
  intro s
  induction s with
  | nil =>
    intro m h
    unfold stringsIndex at h
    split at h
    · rename_i hs
      cases h
      simp [hs]
    · cases h
  | cons c cs ih =>
    intro m h
    unfold stringsIndex at h
    split at h
    · rename_i hp
      cases h
      obtain ⟨t, ht⟩ := List.isPrefixOf_iff_prefix.mp hp
      rw [← ht]
      simp
    · cases hi : stringsIndex sep cs with
      | none => rw [hi] at h; cases h
      | some m1 =>
        rw [hi] at h
        cases h
        have := ih m1 hi
        have e : m1 + 1 + sep.length = (m1 + sep.length) + 1 := by omega
        rw [e, List.take_succ_cons, List.drop_succ_cons]
        simp only [List.cons_append]
        exact congrArg (List.cons c) this

/-- A prefix of a string without the separator at its head has none either. -/
theorem isPrefixOf_take (sep cs : List Char) (n : Nat)
    (h : sep.isPrefixOf (cs.take n) = true) : sep.isPrefixOf cs = true := by
  rw [List.isPrefixOf_iff_prefix] at h ⊢
  exact h.trans (List.take_prefix n cs)

/-- What precedes the first occurrence of a non-empty separator holds no
occurrence. -/
theorem stringsIndex_take (sep : List Char) (hsep : sep ≠ []) :
    ∀ (s : List Char) (m : Nat), stringsIndex sep s = some m →
      stringsIndex sep (s.take m) = none := by
  intro s
  induction s with
  | nil =>
    intro m _
    simp [stringsIndex, hsep]
  | cons c cs ih =>
    intro m h
    unfold stringsIndex at h
    split at h
    · cases h
      simp [stringsIndex, hsep]
    · rename_i hp
      cases hi : stringsIndex sep cs with
      | none => rw [hi] at h; cases h
      | some m1 =>
        rw [hi] at h
        cases h
        rw [List.take_succ_cons]
        unfold stringsIndex
        have hnp : ¬ sep.isPrefixOf (c :: cs.take m1) = true := by
          intro hc
          apply hp
          have : sep.isPrefixOf ((c :: cs).take (m1 + 1)) = true := by
            rw [List.take_succ_cons]; exact hc
          exact isPrefixOf_take sep (c :: cs) (m1 + 1) this
        rw [if_neg hnp, ih m1 hi]
        rfl

/-- `strings.Index` finds nothing exactly when the separator is no contiguous
part of the string. -/
theorem stringsIndex_eq_none_iff (sep : List Char) :
    ∀ s : List Char, stringsIndex sep s = none ↔ ¬ sep <:+: s := by
  intro s
  induction s with
  | nil =>
    unfold stringsIndex
    by_cases hs : sep = []
    · simp [hs]
    · simp [hs]
  | cons c cs ih =>
    unfold stringsIndex
    by_cases hp : sep.isPrefixOf (c :: cs) = true
    · rw [if_pos hp]
      simp only [reduceCtorEq, false_iff, not_not]
      exact (List.isPrefixOf_iff_prefix.mp hp).isInfix
    · rw [if_neg hp]
      rw [Option.map_eq_none', ih, List.infix_cons_iff]
      rw [List.isPrefixOf_iff_prefix] at hp
      tauto

/-- The pieces of `genSplit` are never none. -/
theorem genSplit_ne_nil (sep : List Char) (fuel : Nat) (s : List Char) :
    genSplit sep fuel s ≠ [] := by
  cases fuel with
  | zero => simp [genSplit]
  | succ f =>
    unfold genSplit
    split <;> simp

theorem joinChars_cons (sep a : List Char) (rest : List (List Char)) (h : rest ≠ []) :
    joinChars sep (a :: rest) = a ++ sep ++ joinChars sep rest := by
  cases rest with
  | nil => exact absurd rfl h
  | cons b bs => rfl

/-- What follows an occurrence of a non-empty separator is shorter. -/
theorem drop_after_index_length (sep : List Char) (hsep : sep ≠ []) (s : List Char) (m : Nat)
    (h : stringsIndex sep s = some m) :
    (s.drop (m + sep.length)).length < s.length := by
  have hs := stringsIndex_some sep s m h
  have hl := congrArg List.length hs
  simp only [List.length_append] at hl
  have : 0 < sep.length := List.length_pos.mpr hsep
  omega

/-- Joining the pieces of `genSplit` with the separator gives the string
back, the fuel being enough. -/
theorem joinChars_genSplit (sep : List Char) (hsep : sep ≠ []) (fuel : Nat) :
    ∀ s : List Char, s.length ≤ fuel → joinChars sep (genSplit sep fuel s) = s := by
  induction fuel with
  | zero => intro s _; rfl
  | succ f ih =>
    intro s hs
    unfold genSplit
    cases hi : stringsIndex sep s with
    | none => rfl
    | some m =>
      simp only []
      have hlen := drop_after_index_length sep hsep s m hi
      rw [joinChars_cons _ _ _ (genSplit_ne_nil sep f _), ih _ (by omega)]
      exact (stringsIndex_some sep s m hi).symm

/-- The number of pieces is one more than the number of occurrences. -/
theorem genSplit_length (sep : List Char) (fuel : Nat) :
    ∀ s : List Char, (genSplit sep fuel s).length = countLoop sep fuel s + 1 := by
  induction fuel with
  | zero => intro s; rfl
  | succ f ih =>
    intro s
    unfold genSplit countLoop
    cases stringsIndex sep s with
    | none => rfl
    | some m => simp only [List.length_cons, ih]

/-- No piece of `genSplit` holds the separator, the fuel being enough. -/
theorem genSplit_no_sep (sep : List Char) (hsep : sep ≠ []) (fuel : Nat) :
    ∀ s : List Char, s.length ≤ fuel → ∀ p ∈ genSplit sep fuel s, stringsIndex sep p = none := by
  induction fuel with
  | zero =>
    intro s hs p hp
    have he : s = [] := List.length_eq_zero.mp (by omega)
    subst he
    simp only [genSplit, List.mem_singleton] at hp
    subst hp
    simp [stringsIndex, hsep]
  | succ f ih =>
    intro s hs p hp
    unfold genSplit at hp
    cases hi : stringsIndex sep s with
    | none =>
      rw [hi] at hp
      simp only [List.mem_singleton] at hp
      subst hp
      exact hi
    | some m =>
      rw [hi] at hp
      simp only [List.mem_cons] at hp
      rcases hp with hp | hp
      · subst hp
        exact stringsIndex_take sep hsep s m hi
      · have hlen := drop_after_index_length sep hsep s m hi
        exact ih _ (by omega) p hp

theorem joinChars_singletons (cs : List Char) :
    joinChars [] (cs.map (fun c => [c])) = cs := by
  induction cs with
  | nil => rfl
  | cons c rest ih =>
    cases rest with
    | nil => rfl
    | cons d ds =>
      simp only [List.map_cons, joinChars] at ih ⊢
      simp only [List.append_nil, List.singleton_append]
      rw [ih]

/-- C20: split and join. For all strings `l` and `sep`, joining the elements
of `Eval(Div, String l, String sep)` with `sep` between consecutive elements
gives `l` back; and when `sep` is non-empty, the number of elements is the
number of non-overlapping occurrences of `sep` in `l` plus one, and no element
holds `sep` as a contiguous part. -/
theorem split_join_round_trip (l sep : String) :
    Operator.Eval OpDiv (.string l) (.string sep) = .ok (.strs (stringsSplit l sep))
      ∧ stringsJoin (stringsSplit l sep) sep = l
      ∧ (sep ≠ "" →
          (stringsSplit l sep).length = stringsCount l sep + 1
          ∧ ∀ p ∈ stringsSplit l sep, ¬ sep.data <:+: p.data) := by
  refine ⟨rfl, ?_, ?_⟩
  · unfold stringsJoin stringsSplit
    by_cases hs : sep.data = []
    · rw [if_pos hs, hs, List.map_map]
      have : (String.data ∘ fun c => String.mk [c]) = fun c => [c] := rfl
      rw [this, joinChars_singletons]
    · rw [if_neg hs, List.map_map]
      have : (String.data ∘ String.mk) = id := rfl
      rw [this, List.map_id, joinChars_genSplit sep.data hs _ _ (le_refl _)]
  · intro hne
    have hs : sep.data ≠ [] := by
      intro hc
      apply hne
      exact String.ext hc
    unfold stringsSplit stringsCount
    rw [if_neg hs, if_neg hs]
    refine ⟨by rw [List.length_map, genSplit_length], ?_⟩
    intro p hp
    rw [List.mem_map] at hp
    obtain ⟨q, hq, rfl⟩ := hp
    rw [← stringsIndex_eq_none_iff]
    exact genSplit_no_sep sep.data hs _ _ (le_refl _) q hq

/-- C20, at the instance of the specification: `"a,b,c"` split at `","`. -/
theorem split_join_round_trip_witness :
    stringsJoin (stringsSplit "a,b,c" ",") "," = "a,b,c"
      ∧ (stringsSplit "a,b,c" ",").length = stringsCount "a,b,c" "," + 1
      ∧ ∀ p ∈ stringsSplit "a,b,c" ",", ¬ ("," : String).data <:+: p.data :=
  ⟨(split_join_round_trip "a,b,c" ",").2.1, (split_join_round_trip "a,b,c" ",").2.2 (by decide)⟩

/-! ## Closure outside the split -/

/-- What `multiplyString` returns is `nil`, the captured operand or a string. -/
theorem multiplyString_sixKind (l : Value) (s : String) (cnt : F64) (v : Value)
    (hl : isSixKind l = true) (h : multiplyString l s cnt = .ok v) : isSixKind v = true := by
  unfold multiplyString at h
  split at h
  · cases h; rfl
  · split at h
    · cases h; exact hl
    · cases hs : stringsRepeat s cnt.toInt with
      | error e => rw [hs] at h; cases h
      | ok t => rw [hs] at h; cases h; rfl

/-- Apart from `Div` on two strings, the value domain is closed: on operands
of the six kinds a returned value is a type error or again of the six kinds. -/
theorem closure_outside_split (op : Operator) (l r v : Value)
    (hop : op = OpAdd ∨ op = OpSub ∨ op = OpMul ∨ op = OpDiv)
    (hl : isSixKind l = true) (hr : isSixKind r = true)
    (hns : ¬ (op = OpDiv ∧ l.kind = .string ∧ r.kind = .string))
    (h : Operator.Eval op l r = .ok v) :
    isBinopTypeError v = true ∨ isSixKind v = true := by
  rcases hop with rfl | rfl | rfl | rfl
  all_goals
    cases l <;> cases r <;>
    first
    | exact absurd hl Bool.false_ne_true
    | exact absurd hr Bool.false_ne_true
    | (rw [Eval_mul] at h
       first
       | rw [funcOpMul_int_string] at h
       | rw [funcOpMul_string_int] at h
       | rw [funcOpMul_float_string] at h
       | rw [funcOpMul_string_float] at h
       exact Or.inr (multiplyString_sixKind _ _ _ _ (by rfl) h))
    | (cases h; exact Or.inl rfl)
    | (cases h; exact Or.inr rfl)
    | (rw [Eval_div] at h
       simp only [funcOpDiv, binopTypeSwitch] at h
       split at h
       · cases h
       · cases h; exact Or.inr rfl)
    | (exfalso
       apply hns
       refine ⟨?_, ?_, ?_⟩ <;> rfl)

end Gojq
